import Mathlib

/-!
Shallow embedding of the microbot agent core, translated from the
TypeScript sources of the repository:

* `src/agent/loop.ts` — the dual-grammar tool-call parser
  (`parseToolCalls`), the skill dispatcher (`executeSkill`,
  `executeDataAnalyzer`), the tool-call orchestration loop and the
  message-processing entry point (`processMessage`);
* `src/session/manager.ts` — `Session`, `toJSON` / `fromJSON`,
  `getOrCreateSession`, `saveSession`;
* the skills loader — `parseYaml` front-matter parsing.

Strings are processed as `List Char` (matching JavaScript's sequential
regex scans); JavaScript runtime values that flow through `any`-typed
positions (JSON fields, tool-call parameter values) are modelled by
`Jval`; JavaScript objects used as string-keyed records are modelled as
association lists with JavaScript's insert-or-update-in-place semantics
(`jsInsert`).  Wall-clock timestamps (`new Date().toISOString()`) are
abstracted as an explicit `now : String` argument.  All definitions are
fuel-based structural recursions so that they evaluate by kernel
reduction.
-/

namespace Microbot

/-- A JavaScript runtime value, restricted to the shapes that actually
flow through the `any`-typed positions of the code: strings, (integer)
numbers, booleans and null. -/
inductive Jval where
  | str (s : String)
  | num (n : Int)
  | bool (b : Bool)
  | null
  deriving DecidableEq

/-- Fuel-based decimal digits of a natural number (most significant
first).  Used to model JavaScript's decimal rendering of numbers. -/
def natDigitsAux : Nat → Nat → List Char
  | 0, _ => []
  | fuel + 1, n =>
    if n < 10 then [Char.ofNat (48 + n)]
    else natDigitsAux fuel (n / 10) ++ [Char.ofNat (48 + n % 10)]

/-- Decimal digits of a natural number. -/
def natDigits (n : Nat) : List Char := natDigitsAux (n + 1) n

/-- Decimal rendering of an integer, as JavaScript's `String(n)`
produces for integral numbers. -/
def intDec (n : Int) : List Char :=
  if n < 0 then '-' :: natDigits (-n).toNat else natDigits n.toNat

/-- JavaScript's `String(value)` coercion on `Jval`. -/
def jsString : Jval → String
  | .str s => s
  | .num n => String.mk (intDec n)
  | .bool b => if b then "true" else "false"
  | .null => "null"

/-- JavaScript truthiness of a `Jval` (`''`, `0`, `false`, `null` are
falsy). -/
def jsTruthy : Jval → Bool
  | .str s => !(s == "")
  | .num n => !(n == 0)
  | .bool b => b
  | .null => false

/-- Property read on a JavaScript object modelled as an association
list (`obj[k]`, `undefined` becoming `none`). -/
def jsGet (k : String) : List (String × α) → Option α
  | [] => none
  | kv :: rest => if kv.1 == k then some kv.2 else jsGet k rest

/-- Property write on a JavaScript object: an existing key is updated
in place (keeping its position), a new key is appended.  This is the
insertion-order semantics of JavaScript objects for non-index keys. -/
def jsInsert (k : String) (v : α) : List (String × α) → List (String × α)
  | [] => [(k, v)]
  | kv :: rest => if kv.1 == k then (k, v) :: rest else kv :: jsInsert k v rest

/-- Does the list start with the given pattern? -/
def headMatch : List Char → List Char → Bool
  | [], _ => true
  | _ :: _, [] => false
  | p :: ps, c :: cs => p == c && headMatch ps cs

/-- Split a character list at the first occurrence of `pat`, returning
the text before the occurrence and the text after it.  This is the
semantics of a lazy regex scan for a literal (`indexOf`). -/
def splitOnFirst (pat : List Char) : List Char → Option (List Char × List Char)
  | [] => if headMatch pat [] then some ([], []) else none
  | c :: cs =>
    if headMatch pat (c :: cs) then some ([], (c :: cs).drop pat.length)
    else
      match splitOnFirst pat cs with
      | some (pre, post) => some (c :: pre, post)
      | none => none

/-- `pat` does not occur starting inside `a` (nor spanning from `a`
into the following text `s`): no nonempty suffix of `a`, extended by
`s`, starts with `pat`.  Used to pin down the first occurrence a lazy
regex scan finds. -/
def noHit (pat : List Char) : List Char → List Char → Bool
  | [], _ => true
  | c :: cs, s => !(headMatch pat (c :: (cs ++ s))) && noHit pat cs s

/-- ASCII whitespace, the common core of JavaScript's `\s` and of the
characters `trim` removes.  The code paths modelled here only ever meet
these whitespace characters. -/
def wsChar (c : Char) : Bool := c == ' ' || c == '\t' || c == '\n' || c == '\r'

/-- JavaScript `String.prototype.trim` on character lists. -/
def trimChars (s : List Char) : List Char :=
  ((s.dropWhile wsChar).reverse.dropWhile wsChar).reverse

/-- JavaScript `trim` on `String`. -/
def trimString (s : String) : String := String.mk (trimChars s.data)

/-- Is a character absent from the list? -/
def lacksChar (s : List Char) (c : Char) : Bool := s.all (fun x => !(x == c))

/-- The character class `[a-zA-Z0-9-]` of the tool-call regexes in
`parseToolCalls` (tag names, skill names, method names). -/
def tagChar (c : Char) : Bool := c.isAlpha || c.isDigit || c == '-'

/-- `</name>`. -/
def closeTag (name : List Char) : List Char := '<' :: '/' :: (name ++ ['>'])

/-- `<name>`. -/
def openTag (name : List Char) : List Char := '<' :: (name ++ ['>'])

/-- Attempt to match the regex `<([a-zA-Z0-9-]+)>([\s\S]*?)<\/\1>`
anchored at the start of `s`: an opening tag, then the shortest text
followed by the matching closing tag.  Returns (tag name, enclosed
text, rest after the closing tag). -/
def tryTagAt : List Char → Option (List Char × List Char × List Char)
  | [] => none
  | c :: t =>
    if c = '<' then
      let name := t.takeWhile tagChar
      let t2 := t.dropWhile tagChar
      if name.isEmpty then none
      else
        match t2 with
        | [] => none
        | d :: t3 =>
          if d = '>' then
            match splitOnFirst (closeTag name) t3 with
            | some (inner, rest) => some (name, inner, rest)
            | none => none
          else none
    else none

/-- Leftmost match of the tag regex: the scan advances one character at
a time, as a regex engine does on a failed anchor. -/
def findTag : List Char → Option (List Char × List Char × List Char)
  | [] => none
  | c :: cs =>
    match tryTagAt (c :: cs) with
    | some r => some r
    | none => findTag cs

/-- All successive matches of the global tag regex (each search resumes
after the previous match), fuel-bounded for structural recursion. -/
def tagMatchesAux : Nat → List Char → List (List Char × List Char)
  | 0, _ => []
  | fuel + 1, s =>
    match findTag s with
    | none => []
    | some (name, inner, rest) => (name, inner) :: tagMatchesAux fuel rest

/-- All matches of `/<([a-zA-Z0-9-]+)>([\s\S]*?)<\/\1>/g` over `s`. -/
def tagMatches (s : List Char) : List (List Char × List Char) :=
  tagMatchesAux s.length s

/-- One parsed tool invocation (`{ name, params }` in `parseToolCalls`). -/
structure ToolCall where
  name : String
  params : List (String × Jval)
  deriving DecidableEq

/-- Parameters of a grammar-A (tagged) call: each nested tag pair
becomes a parameter with trimmed value; when no nested pair is found
the whole enclosed text (trimmed) becomes the single `query`
parameter. -/
def buildAParams (inner : List Char) : List (String × Jval) :=
  let ps := (tagMatches inner).foldl
    (fun acc p => jsInsert (String.mk p.1) (Jval.str (String.mk (trimChars p.2))) acc) []
  if ps.isEmpty then [("query", Jval.str (String.mk (trimChars inner)))] else ps

/-- Grammar A of `parseToolCalls`: XML-like tagged blocks. -/
def grammarA (content : List Char) : List ToolCall :=
  (tagMatches content).map (fun p => { name := String.mk p.1, params := buildAParams p.2 })

/-- The literal ```` ```json ````. -/
def fenceJson : List Char := "```json".data

/-- The literal ```` ``` ````. -/
def fence : List Char := "```".data

/-- Attempt to match `\$\{([a-zA-Z0-9-]+)(?:[.:]([a-zA-Z0-9-]+))?\}`
anchored at the start of `s`.  The optional method capture is dead in
the source (bound but never used), so only the name and the rest are
returned. -/
def tryTemplateAt : List Char → Option (List Char × List Char)
  | [] => none
  | c :: t =>
    if c = '$' then
      match t with
      | [] => none
      | b :: t1 =>
        if b = '{' then
          let name := t1.takeWhile tagChar
          let t2 := t1.dropWhile tagChar
          if name.isEmpty then none
          else
            match t2 with
            | [] => none
            | d :: t3 =>
              if d = '}' then some (name, t3)
              else
                if d = '.' ∨ d = ':' then
                  let meth := t3.takeWhile tagChar
                  let t4 := t3.dropWhile tagChar
                  if meth.isEmpty then none
                  else
                    match t4 with
                    | [] => none
                    | e :: t5 => if e = '}' then some (name, t5) else none
                else none
        else none
    else none

/-- The lazy tail of the template regex,
`[\s\S]*?```json\s*([\s\S]*?)\s*``` `: the first ```` ```json ````
occurrence that is followed by a closing fence wins, and the greedy
`\s*` either side of the lazy capture amount to trimming the fenced
text.  Returns (trimmed JSON text, rest after the closing fence). -/
def findJsonBlock (t : List Char) : Option (List Char × List Char) :=
  match splitOnFirst fenceJson t with
  | none => none
  | some (_, afterJson) =>
    match splitOnFirst fence afterJson with
    | none => none
    | some (raw, rest) => some (trimChars raw, rest)

/-- Leftmost full match of the template regex. -/
def findTemplate : List Char → Option (List Char × List Char × List Char)
  | [] => none
  | c :: cs =>
    match tryTemplateAt (c :: cs) with
    | some (name, t3) =>
      match findJsonBlock t3 with
      | some (js, rest) => some (name, js, rest)
      | none => findTemplate cs
    | none => findTemplate cs

/-- All successive matches of the global template regex,
fuel-bounded. -/
def templateMatchesAux : Nat → List Char → List (List Char × List Char)
  | 0, _ => []
  | fuel + 1, s =>
    match findTemplate s with
    | none => []
    | some (name, js, rest) => (name, js) :: templateMatchesAux fuel rest

/-- All matches of the template regex over `s`. -/
def templateMatches (s : List Char) : List (List Char × List Char) :=
  templateMatchesAux s.length s

/-- Characters allowed inside the modelled JSON string literals (no
quote, no backslash: the code's JSON blocks are produced by a model and
the claims only concern escape-free strings). -/
def jsonPlainChar (c : Char) : Bool := !(c == '"') && !(c == '\\')

/-- Drop leading JSON whitespace. -/
def skipWs (s : List Char) : List Char := s.dropWhile wsChar

/-- Parse a JSON string literal `"..."` (escape-free fragment). -/
def parseStringLit : List Char → Option (String × List Char)
  | [] => none
  | c :: t =>
    if c = '"' then
      let content := t.takeWhile jsonPlainChar
      match t.dropWhile jsonPlainChar with
      | [] => none
      | d :: t2 => if d = '"' then some (String.mk content, t2) else none
    else none

/-- Decimal digits back to a natural number. -/
def digitsToNat (ds : List Char) : Nat :=
  ds.foldl (fun a c => a * 10 + (c.toNat - 48)) 0

/-- Parse a JSON scalar value of the modelled fragment: an escape-free
string, an integer, `true`, `false` or `null`.  (`JSON.parse` accepts
more — floats, nested structures — but every claim about grammar B
concerns flat objects with these scalars, and outside this fragment the
model returns `none`, i.e. the occurrence is skipped.) -/
def parseJval (s : List Char) : Option (Jval × List Char) :=
  match parseStringLit s with
  | some (str, r) => some (.str str, r)
  | none =>
    if headMatch "true".data s then some (.bool true, s.drop 4)
    else if headMatch "false".data s then some (.bool false, s.drop 5)
    else if headMatch "null".data s then some (.null, s.drop 4)
    else
      match s with
      | [] => none
      | c :: t =>
        if c = '-' then
          let ds := t.takeWhile Char.isDigit
          if ds.isEmpty then none
          else some (.num (-(digitsToNat ds : Int)), t.dropWhile Char.isDigit)
        else
          if c.isDigit then
            let ds := (c :: t).takeWhile Char.isDigit
            some (.num (digitsToNat ds : Int), (c :: t).dropWhile Char.isDigit)
          else none

/-- Parse one `"key" : value` member (with surrounding whitespace). -/
def parsePair (s : List Char) : Option ((String × Jval) × List Char) :=
  match parseStringLit (skipWs s) with
  | none => none
  | some (k, r1) =>
    match skipWs r1 with
    | [] => none
    | c :: r3 =>
      if c = ':' then
        match parseJval (skipWs r3) with
        | some (v, r5) => some ((k, v), skipWs r5)
        | none => none
      else none

/-- Parse a comma-separated member list, accumulating fields with
JavaScript object insertion semantics (duplicate keys update in
place). -/
def parseMembersAux : Nat → List Char → List (String × Jval) →
    Option (List (String × Jval) × List Char)
  | 0, _, _ => none
  | fuel + 1, s, acc =>
    match parsePair s with
    | none => none
    | some (kv, r) =>
      let acc' := jsInsert kv.1 kv.2 acc
      match r with
      | [] => some (acc', [])
      | c :: r2 => if c = ',' then parseMembersAux fuel r2 acc' else some (acc', c :: r2)

/-- Model of `JSON.parse` on the flat-object fragment: a single object
`{ "k": scalar, ... }` whose whole input must be consumed.  Duplicate
keys follow JavaScript semantics via `jsInsert`. -/
def jsonParse (s : List Char) : Option (List (String × Jval)) :=
  match skipWs s with
  | [] => none
  | c :: t =>
    if c = '{' then
      match skipWs t with
      | [] => none
      | d :: t2 =>
        if d = '}' then if (skipWs t2).isEmpty then some [] else none
        else
          match parseMembersAux s.length (d :: t2) [] with
          | none => none
          | some (obj, r) =>
            match r with
            | [] => none
            | e :: r2 =>
              if e = '}' then (if (skipWs r2).isEmpty then some obj else none) else none
    else none

/-- The parameter-building fold of grammar B: every JSON field except
`sql` is added as a text-coerced parameter (lines 207–211 of
`loop.ts`). -/
def bFold (acc : List (String × Jval)) (kv : String × Jval) : List (String × Jval) :=
  if kv.1 == "sql" then acc else jsInsert kv.1 (Jval.str (jsString kv.2)) acc

/-- The parameter record grammar B builds from a parsed JSON object: a
truthy `sql` field is first copied — uncoerced — to `query` (lines
202–204), then all non-`sql` fields are added coerced to text (lines
207–211). -/
def bParams (obj : List (String × Jval)) : List (String × Jval) :=
  obj.foldl bFold
    (match jsGet "sql" obj with
     | some v => if jsTruthy v then jsInsert "query" v [] else []
     | none => [])

/-- Turn one template match into a tool call: parse the fenced JSON; on
failure the occurrence is skipped (warning logged). -/
def buildBCall (name js : List Char) : Option ToolCall :=
  match jsonParse js with
  | none => none
  | some obj => some { name := String.mk name, params := bParams obj }

/-- Grammar B of `parseToolCalls`: `${name}` / `${name.method}` /
`${name:method}` placeholders followed by a fenced JSON block. -/
def grammarB (content : List Char) : List ToolCall :=
  (templateMatches content).filterMap (fun p => buildBCall p.1 p.2)

/-- `parseToolCalls` (loop.ts lines 155–220): grammar A is attempted
first and wins if it yields any match; otherwise grammar B; an empty
result is `null` (`none`). -/
def parseToolCalls (content : String) : Option (List ToolCall) :=
  let a := grammarA content.data
  if a.isEmpty then
    let b := grammarB content.data
    if b.isEmpty then none else some b
  else some a

/-! ## Session manager (`src/session/manager.ts`) -/

/-- A message stored in a Session transcript (`role`, `content`,
`timestamp`). -/
structure SessMsg where
  role : String
  content : String
  timestamp : String
  deriving DecidableEq

/-- The `Session` class: identity, transcript and timestamps. -/
structure Session where
  channel : String
  user : String
  messages : List SessMsg
  createdAt : String
  updatedAt : String
  deriving DecidableEq

/-- The persisted record shape produced by `Session.toJSON` and written
by `saveSession` (`JSON.stringify` / `JSON.parse` of this plain record
is the identity and is not modelled separately). -/
structure SessionRec where
  channel : String
  user : String
  messages : List SessMsg
  createdAt : String
  updatedAt : String
  deriving DecidableEq

/-- `Session.prototype.toJSON`. -/
def toJSON (s : Session) : SessionRec :=
  { channel := s.channel, user := s.user, messages := s.messages,
    createdAt := s.createdAt, updatedAt := s.updatedAt }

/-- `Session.fromJSON`: rebuilds a session from a record, with
`data.createdAt || now` and `data.updatedAt || session.createdAt`
fallbacks (JavaScript string falsiness: only `''` is falsy; `now`
stands for `new Date().toISOString()`). -/
def fromJSON (now : String) (r : SessionRec) : Session :=
  let createdAt := if r.createdAt == "" then now else r.createdAt
  { channel := r.channel, user := r.user, messages := r.messages,
    createdAt := createdAt,
    updatedAt := if r.updatedAt == "" then createdAt else r.updatedAt }

/-- `Session.prototype.addMessage`: append and touch `updatedAt`. -/
def addMessage (s : Session) (m : SessMsg) (now : String) : Session :=
  { s with messages := s.messages ++ [m], updatedAt := now }

/-! ## Skill descriptor front-matter (`parseYaml` of the skills loader) -/

/-- The value space the `SkillMetadata` interface declares for
front-matter entries: strings or booleans. -/
inductive MetaVal where
  | str (s : String)
  | bool (b : Bool)
  deriving DecidableEq

/-- One line of `parseYaml`: split at the first `:`; trim key and
value; the source's lines
`if (value === 'true') value = 'true'; else if (value === 'false')
value = 'false';` assign the same *string* back, so booleans remain
strings; a double-quoted value has the quotes stripped
(`value.slice(1, -1)`). -/
def parseYamlLine (acc : List (String × MetaVal)) (line : List Char) :
    List (String × MetaVal) :=
  match splitOnFirst [':'] line with
  | none => acc
  | some (before, after) =>
    let key := trimChars before
    let value := trimChars after
    let value1 :=
      if value = "true".data then "true".data
      else if value = "false".data then "false".data
      else
        if value.head? = some '"' ∧ value.getLast? = some '"' then
          (value.drop 1).dropLast
        else value
    jsInsert (String.mk key) (MetaVal.str (String.mk value1)) acc

/-- Split a character list on a separator character, JavaScript
`String.prototype.split` style (empty pieces preserved). -/
def splitOnChar (sep : Char) : List Char → List (List Char)
  | [] => [[]]
  | x :: xs =>
    let r := splitOnChar sep xs
    if x = sep then [] :: r
    else
      match r with
      | h :: t => (x :: h) :: t
      | [] => [[x]]

/-- `parseYaml` of the skills loader: fold the `:`-bearing lines into a
metadata object. -/
def parseYaml (yaml : String) : List (String × MetaVal) :=
  (splitOnChar '\n' yaml.data).foldl parseYamlLine []

/-! ## Skill dispatcher (`executeSkill`, `executeDataAnalyzer`) -/

/-- The part of a loaded skill that `executeSkill` reads (name and
description, used for logging and existence). -/
structure Skill where
  name : String
  description : String

/-- Last element of a JavaScript `split` result (`.pop()`), `''` when
the popped element is empty. -/
def jsPop (pieces : List (List Char)) : List Char :=
  (pieces.getLast?).getD []

/-- `path.split('/').pop() || path.split('\\').pop() || path` — the
file-name extraction of `executeDataAnalyzer` (`||` acts on string
falsiness). -/
def lastComponent (path : List Char) : List Char :=
  let a := jsPop (splitOnChar '/' path)
  if a.isEmpty then
    let b := jsPop (splitOnChar '\\' path)
    if b.isEmpty then path else b
  else a

/-- The character class `[a-zA-Z0-9_]` kept by the table-name
substitution. -/
def alnumU (c : Char) : Bool := c.isAlpha || c.isDigit || c == '_'

/-- `replace(/\.[^.]+$/, '')`: strip a final `.ext` (one or more
non-dot characters after the last dot); no-op when there is no such
suffix. -/
def stripLastExt (cs : List Char) : List Char :=
  let rev := cs.reverse
  let extRev := rev.takeWhile (fun c => !(c == '.'))
  match rev.dropWhile (fun c => !(c == '.')) with
  | [] => cs
  | _ :: beforeRev => if extRev.isEmpty then cs else beforeRev.reverse

/-- Table-name derivation of `executeDataAnalyzer` (loop.ts lines
284–285): take the file name, replace every character outside
`[a-zA-Z0-9_]` by `_`, then attempt to strip the extension.  (Because
the dot has already been replaced by `_`, the extension strip never
fires.) -/
def tableNameOf (path : String) : String :=
  let fileName := lastComponent path.data
  String.mk (stripLastExt (fileName.map (fun c => if alnumU c then c else '_')))

/-- JavaScript `\w` = `[A-Za-z0-9_]`. -/
def wordChar (c : Char) : Bool := c.isAlpha || c.isDigit || c == '_'

/-- `[\w-]`. -/
def tokenChar (c : Char) : Bool := wordChar c || c == '-'

/-- Attempt to match `FROM\s+([\w-]+(?:\.[\w]+)?)` case-insensitively,
anchored at the start; returns the rest after the matched region. -/
def tryFromAt : List Char → Option (List Char)
  | f :: r :: o :: m :: t =>
    if f.toLower = 'f' ∧ r.toLower = 'r' ∧ o.toLower = 'o' ∧ m.toLower = 'm' then
      let ws := t.takeWhile wsChar
      let t2 := t.dropWhile wsChar
      if ws.isEmpty then none
      else
        let tok := t2.takeWhile tokenChar
        let t3 := t2.dropWhile tokenChar
        if tok.isEmpty then none
        else
          match t3 with
          | '.' :: t4 =>
            let ext := t4.takeWhile wordChar
            if ext.isEmpty then some t3 else some (t4.dropWhile wordChar)
          | _ => some t3
    else none
  | _ => none

/-- `sql.replace(/FROM\s+([\w-]+(?:\.[\w]+)?)/i, 'FROM ' + tableName)`:
replace the first match. -/
def fromReplace (tableName : List Char) : List Char → List Char
  | [] => []
  | c :: cs =>
    match tryFromAt (c :: cs) with
    | some rest => "FROM ".data ++ tableName ++ rest
    | none => c :: fromReplace tableName cs

/-- `sql.includes('FROM')` (case-sensitive, unlike the replace
regex). -/
def includesFROM (sql : List Char) : Bool :=
  (splitOnFirst "FROM".data sql).isSome

/-- The table name and processed SQL computed by `executeDataAnalyzer`
before shelling out (loop.ts lines 283–296; the `escapedSql` binding of
line 296 is dead — the command uses `processedSql`). -/
def dataAnalyzerPlan (path sql : String) : String × String :=
  let tableName := tableNameOf path
  let processedSql :=
    if includesFROM sql.data then String.mk (fromReplace tableName.data sql.data)
    else sql
  (tableName, processedSql)

/-- `params.query || ''`, then `if (!sql && params.sql) sql = params.sql`:
the raw (uncoerced) `Jval` the code ends up holding in `sql`. -/
def extractSql (params : List (String × Jval)) : Jval :=
  let sql0 : Jval :=
    match jsGet "query" params with
    | some v => if jsTruthy v then v else .str ""
    | none => .str ""
  if jsTruthy sql0 then sql0
  else
    match jsGet "sql" params with
    | some v => if jsTruthy v then v else sql0
    | none => sql0

/-- `params.filePath || params.path || ''`, then a `'test-data.json'`
default. -/
def extractPath (params : List (String × Jval)) : Jval :=
  let p0 : Jval :=
    match jsGet "filePath" params with
    | some v =>
      if jsTruthy v then v
      else
        match jsGet "path" params with
        | some w => if jsTruthy w then w else .str ""
        | none => .str ""
    | none =>
      match jsGet "path" params with
      | some w => if jsTruthy w then w else .str ""
      | none => .str ""
  if jsTruthy p0 then p0 else .str "test-data.json"

/-- `executeDataAnalyzer` (loop.ts lines 255–348).  `sqltools` is the
external `sqltools <path> --table <t> --query <q>` process: it returns
the stdout or throws (`Except.error`), which the inner `catch` renders
as a textual error.  `formatOut` abstracts the pure stdout
pretty-printing of lines 317–339 (a local `try`/`catch` that never
throws).  Non-string `path`/`sql` values make the JavaScript string
methods throw a `TypeError` inside the inner `try`, likewise rendered
textually. -/
def executeDataAnalyzer (sqltools : String → String → String → Except String String)
    (formatOut : String → String) (params : List (String × Jval)) : String :=
  let sqlv := extractSql params
  let pathv := extractPath params
  match pathv, sqlv with
  | .str path, .str sql =>
    let plan := dataAnalyzerPlan path sql
    match sqltools path plan.1 plan.2 with
    | .error e => "Error executing sqltools: " ++ e
    | .ok stdout =>
      let result := trimString stdout
      if result == "" then "No results returned" else formatOut result
  | _, _ => "Error executing sqltools: TypeError"

/-- A minimal `JSON.stringify` for the params record, used only in the
generic placeholder result string. -/
def stringifyVal : Jval → String
  | .str s => "\"" ++ s ++ "\""
  | .num n => String.mk (intDec n)
  | .bool b => if b then "true" else "false"
  | .null => "null"

/-- `JSON.stringify(params)`. -/
def stringifyParams (params : List (String × Jval)) : String :=
  let inner := params.map (fun kv => "\"" ++ kv.1 ++ "\":" ++ stringifyVal kv.2)
  "\x7b" ++ String.intercalate "," inner ++ "\x7d"

/-- `executeSkill` (loop.ts lines 225–250): look the name up in the
skills loader; an unknown name yields a textual error (never a thrown
exception); `data-analyzer` gets dedicated handling; every other known
skill falls through to the generic placeholder execution.  All branches
return plain text, so the surrounding `try`/`catch` has nothing to
catch in this model. -/
def executeSkill (getSkill : String → Option Skill)
    (sqltools : String → String → String → Except String String)
    (formatOut : String → String)
    (name : String) (params : List (String × Jval)) : String :=
  match getSkill name with
  | none => "Error: Skill " ++ name ++ " not found"
  | some _ =>
    if name == "data-analyzer" then executeDataAnalyzer sqltools formatOut params
    else "Skill " ++ name ++ " executed with params: " ++ stringifyParams params

/-! ## Orchestration loop and message processing (`processMessage`) -/

/-- A model-facing chat message (`{role, content}`). -/
structure ChatMsg where
  role : String
  content : String
  deriving DecidableEq

/-- The environment a `processMessage` run depends on: the model
configuration and availability probe, the chat backend (an oracle from
the model-facing message list to the reply text), the identity/skills
context inputs, and the skill-execution collaborators. -/
structure Env where
  cfgModel : String
  cfgType : String
  modelAvail : Bool
  chat : List ChatMsg → String
  soul : String
  skills : String
  memoryCtx : String
  getSkill : String → Option Skill
  sqltools : String → String → String → Except String String
  formatOut : String → String

/-- `modelResponse.message.content || 'Sorry, I could not generate a
response.'` -/
def replyOf (env : Env) (msgs : List ChatMsg) : String :=
  let r0 := env.chat msgs
  if r0 == "" then "Sorry, I could not generate a response." else r0

/-- What one pass of the tool-call loop accumulates. -/
structure LoopOut where
  response : String
  messages : List ChatMsg
  sessAdds : List SessMsg
  replies : List String
  iterations : Nat
  deriving DecidableEq

/-- The `while (iteration < maxIterations)` tool-call loop of
`processMessage` (loop.ts lines 466–523), with the remaining iteration
budget as fuel.  Each iteration calls the model once; a reply without
tool calls is final; otherwise, *per tool call*, the reply is appended
to the persisted session as an assistant entry (line 503) and the
model-facing list gains the assistant reply plus a user-role tool
result (lines 510–519). -/
def toolLoop (env : Env) (now : String) :
    Nat → List ChatMsg → String → LoopOut
  | 0, msgs, resp =>
    { response := resp, messages := msgs, sessAdds := [], replies := [], iterations := 0 }
  | fuel + 1, msgs, _ =>
    let r := replyOf env msgs
    match parseToolCalls r with
    | none =>
      { response := r, messages := msgs, sessAdds := [], replies := [r], iterations := 1 }
    | some calls =>
      let adds : List SessMsg :=
        calls.map (fun _ => { role := "assistant", content := r, timestamp := now })
      let newMs : List ChatMsg :=
        (calls.map (fun c =>
          [({ role := "assistant", content := r } : ChatMsg),
           { role := "user",
             content := "Tool " ++ c.name ++ " result:\n" ++
               executeSkill env.getSkill env.sqltools env.formatOut c.name c.params }])).flatten
      let rest := toolLoop env now fuel (msgs ++ newMs) r
      { response := rest.response, messages := rest.messages,
        sessAdds := adds ++ rest.sessAdds, replies := r :: rest.replies,
        iterations := rest.iterations + 1 }

/-- An inbound message as any transport delivers it.  The interface
declares `content`, `user`, `channel` as strings, but the runtime
validation guards against them being absent (`none`) or empty. -/
structure InMsg where
  id : String
  content : Option String
  user : Option String
  channel : Option String
  timestamp : String
  mtype : Option String
  clientId : Option String

/-- JavaScript falsiness of a possibly-missing string field. -/
def optFalsy : Option String → Bool
  | none => true
  | some s => s == ""

/-- An outbound delivery: a WebSocket frame (`sendToClient`) or a
Feishu message. -/
inductive Outbound where
  | ws (otype : String) (message : String) (sessionId : String)
  | feishu (channel : String) (text : String)
  deriving DecidableEq

/-- In-memory session map plus the persisted store written by
`saveSession` (key ↦ `toJSON` record). -/
structure AgentState where
  sessions : List (String × Session)
  store : List (String × SessionRec)

/-- Everything a `processMessage` call produces, including the loop
instrumentation observable in the logs (model-call count, cap warning,
reply transcript, per-tool-call session additions). -/
structure ProcOut where
  state : AgentState
  outs : List Outbound
  response : String
  iterations : Nat
  warned : Bool
  replies : List String
  loopAdds : List SessMsg

/-- The hard-coded default system prompt used when `soul.md` is
unavailable. -/
def defaultSoulPrompt : String :=
  "You are Microbot, a lightweight AI agent framework.\n\nYour core instructions:\n1. Be helpful and friendly\n2. Follow user instructions carefully\n3. Use tools when necessary\n4. Keep responses concise and clear\n5. Remember past conversations\n\nYour capabilities:\n- Read and write files\n- Execute shell commands\n- Search the web\n- Send messages\n- Use skills\n- Manage memory"

/-- `buildSystemPrompt` of the context builder: the soul content, else
the default. -/
def buildSystemPrompt (env : Env) : String :=
  if env.soul == "" then defaultSoulPrompt else env.soul

/-- History-to-model mapping of loop.ts lines 401–412: entries with a
falsy role or content are dropped; roles outside
`user`/`assistant`/`system` are folded into `user`. -/
def histToChat (ms : List SessMsg) : List ChatMsg :=
  ms.filterMap (fun sm =>
    if sm.role == "" || sm.content == "" then none
    else
      some { role := if sm.role == "user" || sm.role == "assistant" || sm.role == "system"
                     then sm.role else "user",
             content := sm.content })

/-- Assembly of the model-facing message list (loop.ts lines 382–418):
system prompt (with the skills digest appended when present), mapped
history, then the current inbound content. -/
def assembleMessages (env : Env) (hist : List SessMsg) (content : String) : List ChatMsg :=
  let base := buildSystemPrompt env
  let sys := if env.skills == "" then base
             else base ++ "\n\n## Available Skills\n" ++ env.skills
  (if base == "" then [] else [({ role := "system", content := sys } : ChatMsg)]) ++
    histToChat hist ++ [{ role := "user", content := content }]

/-- The outbound deliveries of lines 544–557: a WebSocket response when
a truthy `clientId` is present, and a Feishu message when
`message.type === 'feishu'`. -/
def sendOuts (m : InMsg) (key resp : String) : List Outbound :=
  (match m.clientId with
   | some cid => if cid == "" then [] else [Outbound.ws "response" resp key]
   | none => []) ++
  (if m.mtype == some "feishu" then [Outbound.feishu (m.channel.getD "") resp] else [])

/-- `processMessage` (loop.ts lines 353–571).  Validation rejects a
message with a falsy `content`, `user` or `channel` before any state is
touched.  Otherwise the session is fetched or created, the inbound
message appended, the model-facing list assembled; an unavailable
Ollama model short-circuits to a fixed reply; otherwise the tool-call
loop runs with `maxIterations = 10`.  The final reply is appended to
the session, the session saved, and deliveries emitted.  (The
freshly-created-session save inside `getOrCreateSession` is overwritten
by the final `saveSession` of the same turn, so only the net store
update is modelled; the outer `try`/`catch` never fires because every
collaborator is total here.) -/
def processMessage (env : Env) (now : String) (st : AgentState) (m : InMsg) : ProcOut :=
  if optFalsy m.content || optFalsy m.user || optFalsy m.channel then
    { state := st, outs := [], response := "", iterations := 0, warned := false,
      replies := [], loopAdds := [] }
  else
    let content := m.content.getD ""
    let user := m.user.getD ""
    let channel := m.channel.getD ""
    let key := channel ++ ":" ++ user
    let session0 : Session :=
      match jsGet key st.sessions with
      | some s => s
      | none => { channel := channel, user := user, messages := [],
                  createdAt := now, updatedAt := now }
    let session1 := addMessage session0
      { role := "user", content := content, timestamp := m.timestamp } now
    let msgs := assembleMessages env session1.messages content
    let model := if env.cfgModel == "" then "qwen3-vl" else env.cfgModel
    let mtype := if env.cfgType == "" then "ollama" else env.cfgType
    if mtype == "ollama" && !env.modelAvail then
      let resp := "Sorry, the model " ++ model ++
        " is not available. Please make sure to pull it with 'ollama pull " ++ model ++ "'."
      let session2 := addMessage session1
        { role := "assistant", content := resp, timestamp := now } now
      { state := { sessions := jsInsert key session2 st.sessions,
                   store := jsInsert key (toJSON session2) st.store },
        outs := sendOuts m key resp, response := resp, iterations := 0,
        warned := false, replies := [], loopAdds := [] }
    else
      let lo := toolLoop env now 10 msgs ""
      let session2 : Session := { session1 with messages := session1.messages ++ lo.sessAdds }
      let session3 := addMessage session2
        { role := "assistant", content := lo.response, timestamp := now } now
      { state := { sessions := jsInsert key session3 st.sessions,
                   store := jsInsert key (toJSON session3) st.store },
        outs := sendOuts m key lo.response, response := lo.response,
        iterations := lo.iterations, warned := decide (10 ≤ lo.iterations),
        replies := lo.replies, loopAdds := lo.sessAdds }

/-! ## Specification-side document families for the parser claims

The universal parser claims quantify over model-output texts of a
given shape.  We realise that shape as explicit document structures
with a rendering function, plus decidable well-formedness conditions
(tag names over the regex alphabet, separators free of the grammar's
trigger characters, distinct parameter keys). -/

/-- The body of a tagged (grammar A) call: either nested parameter tag
pairs or raw text. -/
inductive CallBody where
  | params (ps : List (List Char × List Char))
  | raw (content : List Char)

/-- A tagged call: skill name plus body. -/
structure CallSpec where
  name : List Char
  body : CallBody

/-- A tag name over the regex alphabet `[a-zA-Z0-9-]+`. -/
def wfTagName (n : List Char) : Bool := !n.isEmpty && n.all tagChar

/-- Pairwise-distinct keys of an association list. -/
def distinctKeysL : List (List Char × α) → Bool
  | [] => true
  | kv :: t => t.all (fun kv2 => !(kv2.1 == kv.1)) && distinctKeysL t

/-- A well-formed grammar-A parameter: regex-alphabet name different
from the enclosing call's name, and a value with no `<`. -/
def wfParam (name : List Char) (kv : List Char × List Char) : Bool :=
  wfTagName kv.1 && !(kv.1 == name) && lacksChar kv.2 '<'

/-- A well-formed tagged call. -/
def wfCall (c : CallSpec) : Bool :=
  wfTagName c.name &&
  (match c.body with
   | .params ps => !ps.isEmpty && ps.all (wfParam c.name) && distinctKeysL ps
   | .raw r => lacksChar r '<')

/-- `<k>v</k>`. -/
def renderParam (k v : List Char) : List Char := openTag k ++ v ++ closeTag k

/-- Render a call body. -/
def renderBody : CallBody → List Char
  | .params ps => (ps.map (fun kv => renderParam kv.1 kv.2)).flatten
  | .raw r => r

/-- `<name>body</name>`. -/
def renderCall (c : CallSpec) : List Char :=
  openTag c.name ++ renderBody c.body ++ closeTag c.name

/-- Render a document: separator text before each call, then trailing
text. -/
def renderDocA : List (List Char × CallSpec) → List Char → List Char
  | [], trail => trail
  | (sep, c) :: rest, trail => sep ++ renderCall c ++ renderDocA rest trail

/-- Well-formed grammar-A document: separators and trail contain no
`<`, every call well-formed. -/
def wfDocA (items : List (List Char × CallSpec)) (trail : List Char) : Bool :=
  items.all (fun it => lacksChar it.1 '<' && wfCall it.2) && lacksChar trail '<'

/-- The tool call the specification expects for one tagged call: each
nested pair a parameter with trimmed value; a raw body becomes the
single trimmed `query` parameter. -/
def expectACall (c : CallSpec) : ToolCall :=
  { name := String.mk c.name,
    params :=
      match c.body with
      | .params ps =>
        ps.map (fun kv => (String.mk kv.1, Jval.str (String.mk (trimChars kv.2))))
      | .raw r => [("query", Jval.str (String.mk (trimChars r)))] }

/-- One templated-JSON (grammar B) occurrence: separator text, the
placeholder name, an optional `.method` / `:method` part, free text
between the placeholder and the fence, and the JSON object of the
fenced block. -/
structure TmplSpec where
  sep : List Char
  name : List Char
  meth : Option (Char × List Char)
  mid : List Char
  obj : List (String × Jval)

/-- Characters allowed in rendered JSON keys and string values: no
quote or backslash (escape-free strings), no backtick (which would
close the fence early), no `<` (which could feed grammar A). -/
def cleanChar (c : Char) : Bool :=
  !(c == '"') && !(c == '\\') && !(c == '`') && !(c == '<')

/-- Well-formed rendered JSON scalar. -/
def wfJval : Jval → Bool
  | .str s => s.data.all cleanChar
  | _ => true

/-- Pairwise-distinct string keys. -/
def distinctKeysS : List (String × α) → Bool
  | [] => true
  | kv :: t => t.all (fun kv2 => !(kv2.1 == kv.1)) && distinctKeysS t

/-- Well-formed rendered JSON object: clean distinct keys, clean
scalar values. -/
def wfObj (obj : List (String × Jval)) : Bool :=
  obj.all (fun kv => kv.1.data.all cleanChar && wfJval kv.2) && distinctKeysS obj

/-- Canonical rendering of a JSON scalar. -/
def renderVal : Jval → List Char
  | .str s => '"' :: (s.data ++ ['"'])
  | .num n => intDec n
  | .bool b => if b then "true".data else "false".data
  | .null => "null".data

/-- `"k": v`. -/
def renderPairB (kv : String × Jval) : List Char :=
  '"' :: (kv.1.data ++ '"' :: ':' :: ' ' :: renderVal kv.2)

/-- Comma-separated members. -/
def renderMembers : List (String × Jval) → List Char
  | [] => []
  | kv :: rest =>
    renderPairB kv ++ (if rest.isEmpty then [] else [',', ' ']) ++ renderMembers rest

/-- `{"k": v, ...}`. -/
def renderObj (obj : List (String × Jval)) : List Char :=
  '{' :: (renderMembers obj ++ ['}'])

/-- The rendered optional `.method` / `:method` part of a
placeholder. -/
def renderMeth : Option (Char × List Char) → List Char
  | some (c, m) => c :: m
  | none => []

/-- Render one grammar-B occurrence:
`sep${name[.method]}mid```json⏎{...}⏎``` `. -/
def renderTmpl (t : TmplSpec) : List Char :=
  t.sep ++ '$' :: '{' :: (t.name ++ renderMeth t.meth ++
    '}' :: (t.mid ++ fenceJson ++ '\n' :: (renderObj t.obj ++ '\n' :: fence)))

/-- Render a grammar-B document. -/
def renderDocB : List TmplSpec → List Char → List Char
  | [], trail => trail
  | t :: rest, trail => renderTmpl t ++ renderDocB rest trail

/-- Well-formed grammar-B occurrence: the separator carries no `$`
(no stray placeholder), no `<` and no backtick before the one being
described; the name and optional method are over the regex alphabet;
the mid text carries no backtick (which would start the fence early)
and no `<`; the object is well-formed. -/
def wfTmpl (t : TmplSpec) : Bool :=
  lacksChar t.sep '$' && lacksChar t.sep '<' && lacksChar t.sep '`' &&
  wfTagName t.name &&
  (match t.meth with
   | some (c, m) => (c == '.' || c == ':') && wfTagName m
   | none => true) &&
  lacksChar t.mid '`' && lacksChar t.mid '<' &&
  wfObj t.obj

/-- Well-formed grammar-B document: every occurrence well-formed, the
trail free of `$`, `<` and backticks. -/
def wfDocB (items : List TmplSpec) (trail : List Char) : Bool :=
  items.all wfTmpl && lacksChar trail '$' && lacksChar trail '<' && lacksChar trail '`'

/-- The parameters the specification expects from a grammar-B JSON
object: all fields coerced to text under their own names, except `sql`
which is renamed to `query` (the renamed field keeps the raw value and
is placed first, matching the code's insertion order). -/
def specBParams (obj : List (String × Jval)) : List (String × Jval) :=
  match jsGet "sql" obj with
  | some v =>
    if jsTruthy v then
      ("query", v) ::
        (obj.filter (fun kv => !(kv.1 == "sql"))).map
          (fun kv => (kv.1, Jval.str (jsString kv.2)))
    else
      (obj.filter (fun kv => !(kv.1 == "sql"))).map
        (fun kv => (kv.1, Jval.str (jsString kv.2)))
  | none => obj.map (fun kv => (kv.1, Jval.str (jsString kv.2)))

/-- The tool call the specification expects for one grammar-B
occurrence. -/
def expectBCall (t : TmplSpec) : ToolCall :=
  { name := String.mk t.name, params := specBParams t.obj }

/-- The extra condition under which the claimed renaming behaviour is
stated: an `sql` field, when present, holds a non-empty string and no
separate `query` field exists (otherwise the later field overwrites the
copy, the case treated by the overwrite claim). -/
def wfTmplC5 (t : TmplSpec) : Bool :=
  wfTmpl t &&
    (match jsGet "sql" t.obj with
     | some v =>
       (match v with | .str s => !(s == "") | _ => false) && (jsGet "query" t.obj).isNone
     | none => true)

/-- Number of transcript entries with a given role. -/
def countRole (role : String) (ms : List SessMsg) : Nat :=
  (ms.filter (fun m => m.role == role)).length

/-! ## Concrete instances used to witness the theorems -/

/-- A trivial environment: empty configuration, model available, a
backend that always replies with the empty string, no skills. -/
def envTriv : Env :=
  { cfgModel := "", cfgType := "", modelAvail := true, chat := fun _ => "",
    soul := "", skills := "", memoryCtx := "", getSkill := fun _ => none,
    sqltools := fun _ _ _ => .ok "", formatOut := id }

/-- The empty agent state. -/
def stEmpty : AgentState := { sessions := [], store := [] }

/-- An inbound message with no `content` field. -/
def msgNoContent : InMsg :=
  { id := "1", content := none, user := some "u", channel := some "c",
    timestamp := "t", mtype := none, clientId := none }

/-- A valid inbound message from user `u` on channel `c` with no
transport callbacks. -/
def msgHi : InMsg :=
  { id := "1", content := some "hi", user := some "u", channel := some "c",
    timestamp := "t0", mtype := none, clientId := none }

/-- A valid inbound message carrying a WebSocket client id. -/
def msgWs : InMsg :=
  { id := "2", content := some "hello", user := some "u2", channel := some "c2",
    timestamp := "t0", mtype := none, clientId := some "k1" }

/-- An environment whose backend replies with one tagged tool call on
the first model call (the assembled list has three entries) and with a
plain reply afterwards. -/
def envOneTool : Env :=
  { cfgModel := "m", cfgType := "ollama", modelAvail := true,
    chat := fun msgs => if msgs.length == 3 then "<t><a>1</a></t>" else "done",
    soul := "S", skills := "", memoryCtx := "", getSkill := fun _ => none,
    sqltools := fun _ _ _ => .ok "", formatOut := id }

/-- An environment whose backend always replies with a tagged tool
call. -/
def envLoopy : Env :=
  { cfgModel := "m", cfgType := "ollama", modelAvail := true,
    chat := fun _ => "<t><q>x</q></t>",
    soul := "S", skills := "", memoryCtx := "", getSkill := fun _ => none,
    sqltools := fun _ _ _ => .ok "", formatOut := id }

/-- A skills lookup knowing only `data-analyzer`. -/
def gsDA : String → Option Skill :=
  fun n => if n == "data-analyzer" then some ⟨"data-analyzer", "d"⟩ else none

/-! # Lemmas about the scanning primitives -/

theorem headMatch_self (p r : List Char) : headMatch p (p ++ r) = true := by
  induction p with
  | nil => rfl
  | cons c cs ih => simp [headMatch, ih]

theorem headMatch_append_eq (p : List Char) :
    ∀ s, headMatch p s = true → s = p ++ s.drop p.length := by
  induction p with
  | nil => intro s _; simp
  | cons c cs ih =>
    intro s h
    cases s with
    | nil => simp [headMatch] at h
    | cons d t =>
      simp only [headMatch, Bool.and_eq_true, beq_iff_eq] at h
      obtain ⟨rfl, h2⟩ := h
      have := ih t h2
      simp only [List.length_cons, List.drop_succ_cons, List.cons_append]
      exact congrArg _ this

theorem splitOnFirst_sound (pat : List Char) :
    ∀ s pre post, splitOnFirst pat s = some (pre, post) → s = pre ++ pat ++ post := by
  intro s
  induction s with
  | nil =>
    intro pre post h
    by_cases hp : headMatch pat [] = true
    · cases pat with
      | nil =>
        simp [splitOnFirst] at h
        simp [h.1, h.2]
      | cons _ _ => simp [headMatch] at hp
    · simp [splitOnFirst, hp] at h
  | cons c cs ih =>
    intro pre post h
    rw [splitOnFirst] at h
    by_cases hp : headMatch pat (c :: cs) = true
    · rw [if_pos hp] at h
      simp only [Option.some.injEq, Prod.mk.injEq] at h
      obtain ⟨rfl, rfl⟩ := h
      simpa using headMatch_append_eq pat (c :: cs) hp
    · rw [if_neg hp] at h
      cases hsp : splitOnFirst pat cs with
      | none => rw [hsp] at h; cases h
      | some pr =>
        obtain ⟨pre', post'⟩ := pr
        rw [hsp] at h
        simp only [Option.some.injEq, Prod.mk.injEq] at h
        obtain ⟨h1, h2⟩ := h
        subst h1; subst h2
        have := ih pre' post' hsp
        simp [this]

theorem splitOnFirst_clean (pat : List Char) :
    ∀ (a s : List Char), noHit pat a s = true → headMatch pat s = true →
      splitOnFirst pat (a ++ s) = some (a, s.drop pat.length) := by
  intro a
  induction a with
  | nil =>
    intro s _ hs
    cases s with
    | nil =>
      cases pat with
      | nil => rfl
      | cons _ _ => simp [headMatch] at hs
    | cons c cs => simp [splitOnFirst, hs]
  | cons c cs ih =>
    intro s hn hs
    simp only [noHit, Bool.and_eq_true, Bool.not_eq_true'] at hn
    rw [List.cons_append, splitOnFirst, if_neg (by simp [hn.1])]
    rw [ih s hn.2 hs]

theorem noHit_append (pat x : List Char) :
    ∀ y s, noHit pat (x ++ y) s = (noHit pat x (y ++ s) && noHit pat y s) := by
  induction x with
  | nil => intro y s; simp [noHit]
  | cons c cs ih =>
    intro y s
    simp only [List.cons_append, noHit, ih, List.append_assoc, Bool.and_assoc,
      List.append_eq]

theorem noHit_of_lacks {h : Char} (p : List Char) :
    ∀ (x s : List Char), lacksChar x h = true → noHit (h :: p) x s = true := by
  intro x
  induction x with
  | nil => intro s _; rfl
  | cons c cs ih =>
    intro s hl
    have h1 : (c == h) = false := by
      have h' := hl
      simp only [lacksChar, List.all_cons, Bool.and_eq_true] at h'
      simpa using h'.1
    have h2 : lacksChar cs h = true := by
      simp only [lacksChar, List.all_cons, Bool.and_eq_true] at hl
      exact hl.2
    have hne : (h == c) = false := by
      simp only [beq_eq_false_iff_ne, ne_eq] at h1 ⊢
      exact fun e => h1 e.symm
    simp only [noHit, headMatch, hne, Bool.false_and, Bool.not_false, Bool.true_and]
    exact ih s h2

theorem lacksChar_append (a b : List Char) (c : Char) :
    lacksChar (a ++ b) c = (lacksChar a c && lacksChar b c) := by
  simp [lacksChar, List.all_append]

theorem lacks_of_all {p : Char → Bool} {x : Char}
    (hpx : ∀ c, p c = true → ¬ c = x) :
    ∀ l, l.all p = true → lacksChar l x = true := by
  intro l hl
  simp only [lacksChar, List.all_eq_true] at *
  intro c hc
  simpa using hpx c (hl c hc)

theorem drop_len_append (p r : List Char) : (p ++ r).drop p.length = r := by
  simp

theorem pred_ne {p : Char → Bool} {c x : Char} (h : p c = true) (hx : p x = false) :
    ¬ c = x := fun e => by subst e; rw [h] at hx; cases hx

theorem lacks_of_pred {p : Char → Bool} {x : Char} (hx : p x = false) :
    ∀ l : List Char, l.all p = true → lacksChar l x = true :=
  lacks_of_all (fun c hc => pred_ne hc hx)

theorem takeWhile_append_stop {p : Char → Bool} :
    ∀ (a : List Char) (b : Char) (r : List Char), a.all p = true → p b = false →
      (a ++ b :: r).takeWhile p = a ∧ (a ++ b :: r).dropWhile p = b :: r := by
  intro a
  induction a with
  | nil =>
    intro b r _ hb
    constructor <;> simp [List.takeWhile, List.dropWhile, hb]
  | cons c cs ih =>
    intro b r ha hb
    simp only [List.all_cons, Bool.and_eq_true] at ha
    have := ih b r ha.2 hb
    constructor <;>
      simp [List.takeWhile_cons, List.dropWhile_cons, ha.1, this.1, this.2]

theorem dropWhile_len_le (p : Char → Bool) :
    ∀ l : List Char, (l.dropWhile p).length ≤ l.length := by
  intro l
  induction l with
  | nil => simp [List.dropWhile]
  | cons c cs ih =>
    rw [List.dropWhile_cons]
    by_cases h : p c = true
    · simp only [h, if_true]
      exact Nat.le_succ_of_le ih
    · simp [h]

theorem tryTagAt_ne (c : Char) (t : List Char) (h : ¬ c = '<') :
    tryTagAt (c :: t) = none := by
  simp [tryTagAt, h]

theorem noHit_cons (pat : List Char) (c : Char) (cs s : List Char) :
    noHit pat (c :: cs) s = (!(headMatch pat (c :: (cs ++ s))) && noHit pat cs s) := rfl

theorem tryTagAt_render (name body rest : List Char)
    (hn : wfTagName name = true)
    (hb : noHit (closeTag name) body (closeTag name ++ rest) = true) :
    tryTagAt ('<' :: (name ++ '>' :: (body ++ (closeTag name ++ rest))))
      = some (name, body, rest) := by
  obtain ⟨h1, h2⟩ : (!name.isEmpty) = true ∧ name.all tagChar = true := by
    simpa [wfTagName, Bool.and_eq_true] using hn
  have hie : name.isEmpty = false := by simpa using h1
  have hgt : tagChar '>' = false := by decide
  have htw := takeWhile_append_stop name '>' (body ++ (closeTag name ++ rest)) h2 hgt
  rw [tryTagAt]
  simp [htw.1, htw.2, hie, splitOnFirst_clean _ _ _ hb (headMatch_self _ _),
    drop_len_append]

theorem findTag_skip (sep : List Char) :
    ∀ s, lacksChar sep '<' = true → findTag (sep ++ s) = findTag s := by
  induction sep with
  | nil => intro s _; rfl
  | cons c cs ih =>
    intro s hl
    have h1 : ¬ c = '<' := by
      simp only [lacksChar, List.all_cons, Bool.and_eq_true] at hl
      simpa using hl.1
    have h2 : lacksChar cs '<' = true := by
      simp only [lacksChar, List.all_cons, Bool.and_eq_true] at hl
      exact hl.2
    rw [List.cons_append, findTag, tryTagAt_ne c _ h1]
    exact ih s h2

theorem findTag_none : ∀ s, lacksChar s '<' = true → findTag s = none := by
  intro s
  induction s with
  | nil => intro _; rfl
  | cons c cs ih =>
    intro hl
    have h1 : ¬ c = '<' := by
      simp only [lacksChar, List.all_cons, Bool.and_eq_true] at hl
      simpa using hl.1
    have h2 : lacksChar cs '<' = true := by
      simp only [lacksChar, List.all_cons, Bool.and_eq_true] at hl
      exact hl.2
    rw [findTag, tryTagAt_ne c _ h1]
    exact ih h2

theorem headMatch_gtname (n : List Char) :
    ∀ (k s : List Char), n.all tagChar = true → k.all tagChar = true → ¬ n = k →
      headMatch (n ++ ['>']) (k ++ '>' :: s) = false := by
  induction n with
  | nil =>
    intro k s _ hk hne
    cases k with
    | nil => exact absurd rfl hne
    | cons c k' =>
      simp only [List.all_cons, Bool.and_eq_true] at hk
      have : ('>' == c) = false := by
        simp only [beq_eq_false_iff_ne, ne_eq]
        exact fun e => pred_ne hk.1 (by decide) e.symm
      simp [headMatch, this]
  | cons a n' ih =>
    intro k s hn hk hne
    simp only [List.all_cons, Bool.and_eq_true] at hn
    cases k with
    | nil =>
      have : (a == '>') = false := by
        simp only [beq_eq_false_iff_ne, ne_eq]
        exact pred_ne hn.1 (by decide)
      simp [headMatch, this]
    | cons c k' =>
      simp only [List.all_cons, Bool.and_eq_true] at hk
      by_cases hac : a = c
      · subst hac
        have hne' : ¬ n' = k' := fun e => hne (by rw [e])
        simp only [List.cons_append, headMatch, beq_self_eq_true, Bool.true_and]
        exact ih k' s hn.2 hk.2 hne'
      · simp [headMatch, hac]

theorem noHit_openTag (q k : List Char) (s : List Char) (hk : wfTagName k = true) :
    noHit ('<' :: '/' :: q) (openTag k) s = true := by
  obtain ⟨h1, h2⟩ : (!k.isEmpty) = true ∧ k.all tagChar = true := by
    simpa [wfTagName, Bool.and_eq_true] using hk
  cases k with
  | nil => simp at h1
  | cons c k' =>
    simp only [List.all_cons, Bool.and_eq_true] at h2
    have hc : ('/' == c) = false := by
      simp only [beq_eq_false_iff_ne, ne_eq]
      exact fun e => pred_ne h2.1 (by decide) e.symm
    have hm1 : headMatch ('<' :: '/' :: q) ('<' :: (((c :: k') ++ ['>']) ++ s)) = false := by
      simp [headMatch, hc]
    have hm2 : noHit ('<' :: '/' :: q) ((c :: k') ++ ['>']) s = true := by
      apply noHit_of_lacks
      rw [lacksChar_append]
      have ha : lacksChar (c :: k') '<' = true :=
        lacks_of_pred (p := tagChar) (x := '<') (by decide) _
          (by simp [List.all_cons, h2.1, h2.2])
      rw [ha]
      decide
    rw [show openTag (c :: k') = '<' :: ((c :: k') ++ ['>']) from rfl, noHit_cons, hm1, hm2]
    rfl

theorem noHit_closeTag (name k : List Char) (s : List Char)
    (hn : name.all tagChar = true) (hk : wfTagName k = true) (hne : ¬ name = k) :
    noHit (closeTag name) (closeTag k) s = true := by
  obtain ⟨hk1, hk2⟩ : (!k.isEmpty) = true ∧ k.all tagChar = true := by
    simpa [wfTagName, Bool.and_eq_true] using hk
  have ha : lacksChar k '<' = true := lacks_of_pred (by decide) k hk2
  have hm1 : headMatch (closeTag name) ('<' :: (('/' :: (k ++ ['>'])) ++ s)) = false := by
    rw [show closeTag name = '<' :: ('/' :: (name ++ ['>'])) from rfl]
    simp only [List.cons_append, headMatch, beq_self_eq_true, Bool.true_and,
      List.append_eq]
    rw [show (k ++ ['>']) ++ s = k ++ '>' :: s by simp]
    exact headMatch_gtname name k s hn hk2 hne
  have hm2 : noHit (closeTag name) ('/' :: (k ++ ['>'])) s = true := by
    rw [show closeTag name = '<' :: ('/' :: (name ++ ['>'])) from rfl]
    apply noHit_of_lacks
    rw [show ('/' :: (k ++ ['>'])) = ['/'] ++ (k ++ ['>']) from rfl,
      lacksChar_append, lacksChar_append, ha]
    decide
  rw [show closeTag k = '<' :: ('/' :: (k ++ ['>'])) from rfl, noHit_cons, hm1, hm2]
  rfl

theorem noHit_renderParam (name k v : List Char) (s : List Char)
    (hn : name.all tagChar = true) (hp : wfParam name (k, v) = true) :
    noHit (closeTag name) (renderParam k v) s = true := by
  have hps := hp
  simp only [wfParam, Bool.and_eq_true] at hps
  obtain ⟨⟨hk, hkn⟩, hv⟩ := hps
  have hkn' : ¬ name = k := by
    simp only [Bool.not_eq_true', beq_eq_false_iff_ne, ne_eq] at hkn
    exact fun e => hkn e.symm
  have e1 : renderParam k v = openTag k ++ (v ++ closeTag k) := by
    simp [renderParam, List.append_assoc]
  rw [e1, noHit_append, noHit_append]
  have hopen : noHit (closeTag name) (openTag k) (v ++ (closeTag k ++ s)) = true := by
    have := noHit_openTag (name ++ ['>']) k (v ++ (closeTag k ++ s)) hk
    simpa [closeTag] using this
  have hval : noHit (closeTag name) v (closeTag k ++ s) = true := by
    have : closeTag name = '<' :: ('/' :: (name ++ ['>'])) := rfl
    rw [this]
    exact noHit_of_lacks _ v _ hv
  have hclose : noHit (closeTag name) (closeTag k) s = true :=
    noHit_closeTag name k s hn hk hkn'
  simp [hopen, hval, hclose]

theorem noHit_renderParams (name : List Char) (hn : name.all tagChar = true) :
    ∀ (ps : List (List Char × List Char)) (s : List Char), ps.all (wfParam name) = true →
      noHit (closeTag name) ((ps.map (fun kv => renderParam kv.1 kv.2)).flatten) s = true := by
  intro ps
  induction ps with
  | nil => intro s _; rfl
  | cons kv rest ih =>
    intro s hall
    simp only [List.all_cons, Bool.and_eq_true] at hall
    simp only [List.map_cons, List.flatten_cons]
    rw [noHit_append]
    have h1 := noHit_renderParam name kv.1 kv.2
      ((rest.map (fun kv => renderParam kv.1 kv.2)).flatten ++ s) hn (by simpa using hall.1)
    rw [h1, ih _ hall.2]
    rfl

theorem noHit_renderBody (name : List Char) (body : CallBody) (s : List Char)
    (hc : wfCall ⟨name, body⟩ = true) :
    noHit (closeTag name) (renderBody body) s = true := by
  cases body with
  | params ps =>
    obtain ⟨hn, hps⟩ :
        wfTagName name = true ∧
          ((!ps.isEmpty) = true ∧ ps.all (wfParam name) = true ∧ distinctKeysL ps = true) := by
      simpa [wfCall, Bool.and_eq_true, and_assoc] using hc
    have hnall : name.all tagChar = true :=
      ((by simpa [wfTagName, Bool.and_eq_true] using hn :
        (!name.isEmpty) = true ∧ name.all tagChar = true)).2
    rw [renderBody]
    exact noHit_renderParams name hnall ps s hps.2.1
  | raw r =>
    obtain ⟨hn, hr⟩ : wfTagName name = true ∧ lacksChar r '<' = true := by
      simpa [wfCall, Bool.and_eq_true] using hc
    rw [renderBody, show closeTag name = '<' :: ('/' :: (name ++ ['>'])) from rfl]
    exact noHit_of_lacks _ r s hr

theorem findTag_render (name : List Char) (body : CallBody) (rest : List Char)
    (hn : wfTagName name = true)
    (hb : noHit (closeTag name) (renderBody body) (closeTag name ++ rest) = true) :
    findTag (renderCall ⟨name, body⟩ ++ rest) = some (name, renderBody body, rest) := by
  have e : renderCall ⟨name, body⟩ ++ rest
      = '<' :: (name ++ '>' :: (renderBody body ++ (closeTag name ++ rest))) := by
    simp [renderCall, openTag, List.append_assoc]
  rw [e, findTag, tryTagAt_render name _ rest hn hb]

theorem tryTagAt_rest_lt :
    ∀ (s n i rest : List Char), tryTagAt s = some (n, i, rest) → rest.length < s.length := by
  intro s n i rest h
  cases s with
  | nil => simp [tryTagAt] at h
  | cons c t =>
    simp only [tryTagAt] at h
    split at h
    · split at h
      · exact absurd h (by simp)
      · split at h
        · exact absurd h (by simp)
        · next d t3 ht2 =>
          split at h
          · split at h
            · next inner rest' hsp =>
              simp only [Option.some.injEq, Prod.mk.injEq] at h
              obtain ⟨h1, h2, h3⟩ := h
              subst h3
              have hs := splitOnFirst_sound _ _ _ _ hsp
              have hlen3 : t3.length = inner.length +
                  ((closeTag (t.takeWhile tagChar)).length + rest'.length) := by
                rw [hs]; simp [List.length_append]
              have hc1 : 0 < (closeTag (t.takeWhile tagChar)).length := by
                simp [closeTag]
              have hd : t3.length < t.length := by
                have := dropWhile_len_le tagChar t
                rw [ht2] at this
                simpa using Nat.lt_of_lt_of_le (Nat.lt_succ_self _) this
              simp only [List.length_cons]
              omega
            · exact absurd h (by simp)
          · exact absurd h (by simp)
    · exact absurd h (by simp)

theorem findTag_rest_lt :
    ∀ (s n i rest : List Char), findTag s = some (n, i, rest) → rest.length < s.length := by
  intro s
  induction s with
  | nil => intro n i rest h; simp [findTag] at h
  | cons c cs ih =>
    intro n i rest h
    rw [findTag] at h
    cases ht : tryTagAt (c :: cs) with
    | some r =>
      rw [ht] at h
      obtain ⟨n', i', rest'⟩ := r
      simp only [Option.some.injEq, Prod.mk.injEq] at h
      obtain ⟨e1, e2, e3⟩ := h
      subst e3
      exact tryTagAt_rest_lt (c :: cs) n' i' rest' ht
    | none =>
      rw [ht] at h
      have := ih n i rest h
      simp only [List.length_cons]
      omega

theorem tagMatchesAux_nil : ∀ f, tagMatchesAux f [] = [] := by
  intro f
  cases f with
  | zero => rfl
  | succ n => rw [tagMatchesAux]; rfl

theorem tagMatchesAux_congr :
    ∀ f1 f2 s, s.length ≤ f1 → s.length ≤ f2 → tagMatchesAux f1 s = tagMatchesAux f2 s := by
  intro f1
  induction f1 with
  | zero =>
    intro f2 s h1 _
    have : s = [] := List.length_eq_zero.mp (Nat.le_zero.mp h1)
    subst this
    rw [tagMatchesAux_nil, tagMatchesAux_nil]
  | succ n ih =>
    intro f2 s h1 h2
    cases s with
    | nil => rw [tagMatchesAux_nil, tagMatchesAux_nil]
    | cons c cs =>
      cases f2 with
      | zero => simp at h2
      | succ m =>
        rw [tagMatchesAux, tagMatchesAux]
        cases hf : findTag (c :: cs) with
        | none => rfl
        | some r =>
          obtain ⟨nm, i, rest⟩ := r
          have hlt := findTag_rest_lt _ _ _ _ hf
          simp only [List.length_cons] at hlt h1 h2
          have e := ih m rest (by omega) (by omega)
          simp [e]

/-! # Association-list (JavaScript object) lemmas -/

theorem jsGet_insert_self {α : Type} (k : String) (v : α) :
    ∀ l, jsGet k (jsInsert k v l) = some v := by
  intro l
  induction l with
  | nil => simp [jsInsert, jsGet]
  | cons kv rest ih =>
    by_cases h : kv.1 = k
    · simp [jsInsert, jsGet, h]
    · simp [jsInsert, jsGet, h, ih]

theorem jsGet_insert_ne {α : Type} (k k' : String) (v : α) (h : ¬ k = k') :
    ∀ l, jsGet k (jsInsert k' v l) = jsGet k l := by
  have h' : ¬ k' = k := fun e => h e.symm
  intro l
  induction l with
  | nil => simp [jsInsert, jsGet, h']
  | cons kv rest ih =>
    by_cases hk : kv.1 = k'
    · have hkk : ¬ kv.1 = k := by rw [hk]; exact h'
      simp [jsInsert, jsGet, hk, hkk, h']
    · by_cases hk2 : kv.1 = k
      · simp [jsInsert, jsGet, hk, hk2, h]
      · simp [jsInsert, jsGet, hk, hk2, ih]

theorem jsGet_append {α : Type} (k : String) :
    ∀ (a b : List (String × α)), jsGet k (a ++ b)
      = (match jsGet k a with | some v => some v | none => jsGet k b) := by
  intro a b
  induction a with
  | nil => simp [jsGet]
  | cons kv rest ih =>
    by_cases h : kv.1 = k
    · simp [jsGet, h]
    · simp [jsGet, h, ih]

theorem jsGet_none_of_all {α : Type} (k : String) :
    ∀ l : List (String × α), (∀ kv ∈ l, ¬ kv.1 = k) → jsGet k l = none := by
  intro l
  induction l with
  | nil => intro _; rfl
  | cons kv rest ih =>
    intro h
    simp [jsGet, h kv (by simp), ih (fun kv2 hm => h kv2 (by simp [hm]))]

theorem jsGet_none_mem {α : Type} (k : String) :
    ∀ l : List (String × α), jsGet k l = none → ∀ kv ∈ l, ¬ kv.1 = k := by
  intro l
  induction l with
  | nil => intro _ kv hm; simp at hm
  | cons kv0 rest ih =>
    intro h kv hm
    rw [jsGet] at h
    by_cases h0 : kv0.1 = k
    · simp [h0] at h
    · simp only [h0, beq_iff_eq, if_false, if_neg h0] at h
      rcases List.mem_cons.mp hm with rfl | hm2
      · exact h0
      · exact ih h kv hm2

theorem jsInsert_append_fresh {α : Type} (k : String) (v : α) :
    ∀ l, jsGet k l = none → jsInsert k v l = l ++ [(k, v)] := by
  intro l
  induction l with
  | nil => intro _; rfl
  | cons kv rest ih =>
    intro h
    have h0 : ¬ kv.1 = k := by
      intro e
      rw [jsGet, if_pos (by simpa using e)] at h
      cases h
    have h1 : jsGet k rest = none := by
      rw [jsGet, if_neg (by simpa using h0)] at h
      exact h
    rw [jsInsert, if_neg (by simpa using h0), ih h1, List.cons_append]

theorem foldl_jsInsert_fresh {α : Type} :
    ∀ (kvs acc : List (String × α)),
      distinctKeysS kvs = true → (∀ kv ∈ kvs, jsGet kv.1 acc = none) →
      kvs.foldl (fun a kv => jsInsert kv.1 kv.2 a) acc = acc ++ kvs := by
  intro kvs
  induction kvs with
  | nil => intro acc _ _; simp
  | cons kv rest ih =>
    intro acc hd hf
    obtain ⟨hd1, hd2⟩ : rest.all (fun kv2 => !(kv2.1 == kv.1)) = true ∧
        distinctKeysS rest = true := by
      simpa [distinctKeysS, Bool.and_eq_true] using hd
    simp only [List.foldl_cons]
    rw [jsInsert_append_fresh _ _ _ (hf kv (by simp))]
    rw [ih (acc ++ [(kv.1, kv.2)]) hd2 ?_]
    · simp
    · intro kv2 hm
      rw [jsGet_append]
      rw [hf kv2 (by simp [hm])]
      have hne : ¬ kv2.1 = kv.1 := by
        have := List.all_eq_true.mp hd1 kv2 hm
        simpa using this
      have hne' : ¬ kv.1 = kv2.1 := fun e => hne e.symm
      simp [jsGet, hne']

theorem mk_ne_of_ne {a b : List Char} (h : ¬ a = b) : ¬ String.mk a = String.mk b :=
  fun e => h (by have := congrArg String.data e; simpa using this)

theorem distinctKeysS_map_mk {β : Type} (f : List Char × List Char → β) :
    ∀ ps : List (List Char × List Char), distinctKeysL ps = true →
      distinctKeysS (ps.map (fun kv => (String.mk kv.1, f kv))) = true := by
  intro ps
  induction ps with
  | nil => intro _; rfl
  | cons kv rest ih =>
    intro hd
    obtain ⟨hd1, hd2⟩ : rest.all (fun kv2 => !(kv2.1 == kv.1)) = true ∧
        distinctKeysL rest = true := by
      simpa [distinctKeysL, Bool.and_eq_true] using hd
    simp only [List.map_cons, distinctKeysS, Bool.and_eq_true]
    refine ⟨?_, ih hd2⟩
    apply List.all_eq_true.mpr
    intro q hq
    obtain ⟨kv2, hm, rfl⟩ := List.mem_map.mp hq
    have hne : ¬ kv2.1 = kv.1 := by
      have := List.all_eq_true.mp hd1 kv2 hm
      simpa using this
    simpa using mk_ne_of_ne hne

/-! # Grammar A on rendered documents -/

theorem tagMatchesAux_renderDocA :
    ∀ (items : List (List Char × CallSpec)) (trail : List Char),
      wfDocA items trail = true →
      ∀ fuel, (renderDocA items trail).length ≤ fuel →
      tagMatchesAux fuel (renderDocA items trail)
        = items.map (fun it => (it.2.name, renderBody it.2.body)) := by
  intro items
  induction items with
  | nil =>
    intro trail hwf fuel _
    have htr : lacksChar trail '<' = true := by simpa [wfDocA] using hwf
    rw [renderDocA]
    cases fuel with
    | zero => rfl
    | succ n => rw [tagMatchesAux, findTag_none trail htr]; rfl
  | cons it rest ih =>
    intro trail hwf fuel hf
    obtain ⟨sep, name, body⟩ := it
    have hwf' := hwf
    simp only [wfDocA, List.all_cons, Bool.and_eq_true] at hwf'
    obtain ⟨⟨⟨h1, h2⟩, hall⟩, htr⟩ := hwf'
    have h3 : wfDocA rest trail = true := by
      simp [wfDocA, Bool.and_eq_true, hall, htr]
    have hn : wfTagName name = true := by
      have := h2
      simp only [wfCall, Bool.and_eq_true] at this
      exact this.1
    have e : renderDocA ((sep, ⟨name, body⟩) :: rest) trail
        = sep ++ (renderCall ⟨name, body⟩ ++ renderDocA rest trail) := by
      simp [renderDocA, List.append_assoc]
    have hcall : 0 < (renderCall ⟨name, body⟩).length := by
      simp [renderCall, openTag]
    cases fuel with
    | zero =>
      exfalso
      rw [e] at hf
      simp only [List.length_append, Nat.le_zero] at hf
      omega
    | succ n =>
      rw [e, tagMatchesAux, findTag_skip sep _ h1,
        findTag_render name body _ hn
          (noHit_renderBody name body (closeTag name ++ renderDocA rest trail) h2)]
      have hb1 : (renderDocA rest trail).length ≤ n := by
        rw [e] at hf
        simp only [List.length_append, List.length_cons] at hf ⊢
        omega
      have hrec : tagMatchesAux n (renderDocA rest trail)
          = rest.map (fun it => (it.2.name, renderBody it.2.body)) := by
        rw [tagMatchesAux_congr n (renderDocA rest trail).length _ hb1 le_rfl]
        exact ih trail h3 _ le_rfl
      simp [hrec]

theorem tagMatches_lacks (s : List Char) (h : lacksChar s '<' = true) :
    tagMatches s = [] := by
  rw [tagMatches]
  cases hl : s.length with
  | zero => have : s = [] := List.length_eq_zero.mp hl; subst this; rfl
  | succ n => rw [tagMatchesAux, findTag_none s h]

theorem renderDocA_params (ps : List (List Char × List Char)) :
    renderDocA (ps.map (fun kv => (([] : List Char), (⟨kv.1, .raw kv.2⟩ : CallSpec)))) []
      = renderBody (.params ps) := by
  induction ps with
  | nil => rfl
  | cons kv rest ih =>
    simp only [List.map_cons, renderDocA, renderBody, List.map_cons, List.flatten_cons]
    rw [show renderBody (CallBody.params rest)
        = (rest.map (fun kv => renderParam kv.1 kv.2)).flatten from rfl] at ih
    rw [ih]
    simp [renderCall, renderBody, renderParam, openTag]

theorem foldl_paramInsert :
    ∀ (l : List (List Char × List Char)) (acc : List (String × Jval)),
      distinctKeysL l = true →
      (∀ kv ∈ l, jsGet (String.mk kv.1) acc = none) →
      l.foldl (fun acc p => jsInsert (String.mk p.1) (Jval.str (String.mk (trimChars p.2))) acc) acc
        = acc ++ l.map (fun kv => (String.mk kv.1, Jval.str (String.mk (trimChars kv.2)))) := by
  intro l
  induction l with
  | nil => intro acc _ _; simp
  | cons kv rest ihl =>
    intro acc hd hf
    obtain ⟨hd1, hd2⟩ : rest.all (fun kv2 => !(kv2.1 == kv.1)) = true ∧
        distinctKeysL rest = true := by
      simpa [distinctKeysL, Bool.and_eq_true] using hd
    simp only [List.foldl_cons]
    rw [jsInsert_append_fresh _ _ _ (hf kv (by simp))]
    rw [ihl (acc ++ [(String.mk kv.1, Jval.str (String.mk (trimChars kv.2)))]) hd2 ?_]
    · simp
    · intro kv2 hm
      rw [jsGet_append, hf kv2 (by simp [hm])]
      have hne : ¬ kv2.1 = kv.1 := by simpa using List.all_eq_true.mp hd1 kv2 hm
      have hne2 : ¬ String.mk kv.1 = String.mk kv2.1 :=
        mk_ne_of_ne (fun e => hne e.symm)
      simp [jsGet, hne2]

theorem map_extract_params :
    ∀ ps : List (List Char × List Char),
      ((ps.map (fun kv => (([] : List Char), (⟨kv.1, .raw kv.2⟩ : CallSpec)))).map
        (fun it => (it.2.name, renderBody it.2.body))) = ps := by
  intro ps
  induction ps with
  | nil => rfl
  | cons kv rest ih =>
    simp only [List.map_cons, ih]
    rfl

theorem buildAParams_render (name : List Char) (body : CallBody)
    (hc : wfCall ⟨name, body⟩ = true) :
    buildAParams (renderBody body) = (expectACall ⟨name, body⟩).params := by
  cases body with
  | raw r =>
    have hr : lacksChar r '<' = true := by
      have h2 : (wfTagName name && lacksChar r '<') = true := by
        simpa [wfCall, lacksChar] using hc
      exact (Bool.and_eq_true _ _ ▸ h2).2
    rw [buildAParams, renderBody, tagMatches_lacks r hr]
    rfl
  | params ps =>
    obtain ⟨hn, hpe, hall, hdk⟩ :
        wfTagName name = true ∧ (!ps.isEmpty) = true ∧
          ps.all (wfParam name) = true ∧ distinctKeysL ps = true := by
      simpa [wfCall, Bool.and_eq_true, and_assoc] using hc
    have hwfd : wfDocA (ps.map (fun kv =>
        (([] : List Char), (⟨kv.1, .raw kv.2⟩ : CallSpec)))) [] = true := by
      simp only [wfDocA, Bool.and_eq_true]
      refine ⟨List.all_eq_true.mpr ?_, by decide⟩
      intro q hq
      obtain ⟨kv, hm, rfl⟩ := List.mem_map.mp hq
      have hp := List.all_eq_true.mp hall kv hm
      simp only [wfParam, Bool.and_eq_true] at hp
      simp only [wfCall, Bool.and_eq_true]
      exact ⟨by decide, hp.1.1, hp.2⟩
    have htm : tagMatches (renderBody (.params ps)) = ps := by
      rw [← renderDocA_params ps, tagMatches]
      rw [tagMatchesAux_renderDocA _ _ hwfd _ le_rfl]
      exact map_extract_params ps
    rw [buildAParams, htm]
    rw [foldl_paramInsert ps [] hdk (fun kv _ => rfl)]
    rw [List.nil_append]
    have hne : (ps.map (fun kv =>
        (String.mk kv.1, Jval.str (String.mk (trimChars kv.2))))).isEmpty = false := by
      cases ps with
      | nil => simp at hpe
      | cons _ _ => rfl
    rw [hne]
    simp [expectACall]

theorem grammarA_renderDocA (items : List (List Char × CallSpec)) (trail : List Char)
    (hwf : wfDocA items trail = true) :
    grammarA (renderDocA items trail) = items.map (fun it => expectACall it.2) := by
  rw [grammarA, tagMatches, tagMatchesAux_renderDocA items trail hwf _ le_rfl,
    List.map_map]
  apply List.map_congr_left
  intro it hm
  have hc : wfCall it.2 = true := by
    have hwf' := hwf
    simp only [wfDocA, Bool.and_eq_true] at hwf'
    have h2 := List.all_eq_true.mp hwf'.1 it hm
    simp only [Bool.and_eq_true] at h2
    exact h2.2
  obtain ⟨sep, c⟩ := it
  obtain ⟨name, body⟩ := c
  have hb := buildAParams_render name body hc
  simp only [Function.comp]
  show ({ name := String.mk name, params := buildAParams (renderBody body) } : ToolCall)
      = expectACall ⟨name, body⟩
  rw [hb]
  rfl

/-! # Claim theorems (first group) -/

/-- C4: for every model-output text that is a well-formed tagged
document — separator text without `<`, calls whose names and parameter
names are over the regex alphabet `[a-zA-Z0-9-]+`, parameter names
distinct and different from the call name, parameter values and raw
bodies without `<` — the parser yields one ToolCall per top-level pair
in document order; each nested pair becomes a named parameter with its
trimmed text as value, and a call without nested pairs gets its entire
trimmed body as the single `query` parameter.  In particular
`<greet><name>Ana</name></greet>` yields exactly
`{name := "greet", params := [("name", "Ana")]}` (see the witness). -/
theorem parser_tagged_grammar (items : List (List Char × CallSpec)) (trail : List Char)
    (hne : items ≠ []) (hwf : wfDocA items trail = true) :
    parseToolCalls (String.mk (renderDocA items trail))
      = some (items.map (fun it => expectACall it.2)) := by
  have hg : grammarA (String.mk (renderDocA items trail)).data
      = items.map (fun it => expectACall it.2) := grammarA_renderDocA items trail hwf
  rw [parseToolCalls]
  simp only [hg]
  have hemp : (items.map (fun it => expectACall it.2)).isEmpty = false := by
    cases items with
    | nil => exact absurd rfl hne
    | cons _ _ => rfl
  simp [hemp]

/-- Witness for C4 at the specification's canonical instance: the text
`<greet><name>Ana</name></greet>` produces exactly one ToolCall
`{name := "greet", params := {name: "Ana"}}`. -/
theorem parser_tagged_grammar_witness :
    parseToolCalls (String.mk (renderDocA
        [([], ⟨"greet".data, CallBody.params [("name".data, "Ana".data)]⟩)] []))
      = some [{ name := "greet", params := [("name", Jval.str "Ana")] }] :=
  (parser_tagged_grammar
      [([], ⟨"greet".data, CallBody.params [("name".data, "Ana".data)]⟩)] []
      (List.cons_ne_nil _ _) (by decide)).trans (by decide)

/-- C7: an inbound message whose `content`, `user` or `channel` is
missing is rejected before any state mutation: the session map and the
persisted store are untouched, no outbound delivery is produced, and
the model is never called. -/
theorem invalid_message_no_mutation (env : Env) (now : String) (st : AgentState)
    (m : InMsg) (h : m.content = none ∨ m.user = none ∨ m.channel = none) :
    (processMessage env now st m).state = st ∧
    (processMessage env now st m).outs = [] ∧
    (processMessage env now st m).replies = [] := by
  have hv : (optFalsy m.content || optFalsy m.user || optFalsy m.channel) = true := by
    rcases h with h | h | h <;> simp [optFalsy, h]
  rw [processMessage, if_pos hv]
  exact ⟨rfl, rfl, rfl⟩

/-- Witness for C7: a concrete message with no `content` leaves the
empty state unchanged and emits nothing. -/
theorem invalid_message_no_mutation_witness :
    (processMessage envTriv "now" stEmpty msgNoContent).state = stEmpty ∧
    (processMessage envTriv "now" stEmpty msgNoContent).outs = [] ∧
    (processMessage envTriv "now" stEmpty msgNoContent).replies = [] :=
  invalid_message_no_mutation envTriv "now" stEmpty msgNoContent (Or.inl rfl)

/-- C9: serializing a Session with `toJSON` and rebuilding it with
`fromJSON` reproduces the identical ordered message list together with
`channel`, `user`, `createdAt` and `updatedAt`, for every session whose
timestamps are non-empty (as every session the program constructs has
ISO-string timestamps). -/
theorem session_roundtrip (s : Session) (now : String)
    (h1 : s.createdAt ≠ "") (h2 : s.updatedAt ≠ "") :
    fromJSON now (toJSON s) = s := by
  have e1 : (s.createdAt == "") = false := by simpa using h1
  have e2 : (s.updatedAt == "") = false := by simpa using h2
  cases s with
  | mk ch u ms ca ua =>
    simp only [toJSON, fromJSON] at e1 e2 ⊢
    simp [e1, e2]

/-- Witness for C9 at a concrete two-field session. -/
theorem session_roundtrip_witness :
    fromJSON "t9" (toJSON ⟨"c", "u", [⟨"user", "hi", "t1"⟩], "t0", "t1"⟩)
      = ⟨"c", "u", [⟨"user", "hi", "t1"⟩], "t0", "t1"⟩ :=
  session_roundtrip _ "t9" (by decide) (by decide)

/-- C3 (code evaluation at the failing input): the table name the code
derives for the file `test-data.csv` is `test_data_csv`, not the
`test_data` the specification states, and that name is what gets
substituted into the `FROM` clause.  The extension-stripping
`replace(/\.[^.]+$/, '')` can never fire because the dot has already
been replaced by an underscore. -/
theorem data_analyzer_table_name_eval :
    dataAnalyzerPlan "test-data.csv" "SELECT COUNT(*) FROM test-data.csv"
      = ("test_data_csv", "SELECT COUNT(*) FROM test_data_csv")
    ∧ ¬ tableNameOf "test-data.csv" = "test_data" := by
  exact ⟨by decide, by decide⟩

/-- C6 (code evaluation at the failing input): a front-matter line
`user-invocable: false` parses to the *string* `"false"`, not to a
boolean — the `if (value === 'true') value = 'true'` branches of
`parseYaml` assign the same string back — while quoted values do get
their quotes stripped. -/
theorem yaml_bool_stays_string_eval :
    parseYaml "name: \"analyzer\"\nuser-invocable: false"
        = [("name", MetaVal.str "analyzer"), ("user-invocable", MetaVal.str "false")]
      ∧ ¬ MetaVal.str "false" = MetaVal.bool true
      ∧ ¬ MetaVal.str "false" = MetaVal.bool false := by
  exact ⟨by decide, by decide, by decide⟩

/-- C8: the dispatcher never throws.  An unknown skill name yields the
textual result `Error: Skill <name> not found`; and when a known
skill's execution fails (here: the `sqltools` process of
`data-analyzer` throwing `e`), the failure is caught and rendered as
the textual result `Error executing sqltools: <e>`. -/
theorem dispatcher_errors_textual :
    (∀ (getSkill : String → Option Skill)
        (sqltools : String → String → String → Except String String)
        (formatOut : String → String) (name : String) (params : List (String × Jval)),
      getSkill name = none →
      executeSkill getSkill sqltools formatOut name params
        = "Error: Skill " ++ name ++ " not found")
    ∧ (∀ (getSkill : String → Option Skill) (formatOut : String → String)
        (sk : Skill) (params : List (String × Jval)) (path sql e : String),
      getSkill "data-analyzer" = some sk →
      jsGet "query" params = some (Jval.str sql) → sql ≠ "" →
      jsGet "filePath" params = some (Jval.str path) → path ≠ "" →
      executeSkill getSkill (fun _ _ _ => Except.error e) formatOut "data-analyzer" params
        = "Error executing sqltools: " ++ e) := by
  constructor
  · intro getSkill sqltools formatOut name params h
    rw [executeSkill, h]
  · intro getSkill formatOut sk params path sql e hgs hq hsq hp hpp
    have hsq' : (sql == "") = false := by simpa using hsq
    have hpp' : (path == "") = false := by simpa using hpp
    rw [executeSkill, hgs]
    simp only [beq_self_eq_true, if_true, if_pos rfl]
    rw [executeDataAnalyzer]
    have hsqlv : extractSql params = Jval.str sql := by
      rw [extractSql, hq]
      simp [jsTruthy, hsq']
    have hpathv : extractPath params = Jval.str path := by
      rw [extractPath, hp]
      simp [jsTruthy, hpp']
    rw [hsqlv, hpathv]

/-- Witness for C8: a catalog without `nope` yields the unknown-skill
error text, and a failing `sqltools` run of `data-analyzer` yields the
execution error text. -/
theorem dispatcher_errors_textual_witness :
    executeSkill (fun _ => none) (fun _ _ _ => .ok "") id "nope" []
        = "Error: Skill nope not found"
    ∧ executeSkill gsDA (fun _ _ _ => .error "boom") id "data-analyzer"
        [("query", Jval.str "SELECT 1"), ("filePath", Jval.str "f.csv")]
        = "Error executing sqltools: boom" :=
  ⟨dispatcher_errors_textual.1 (fun _ => none) (fun _ _ _ => .ok "") id "nope" [] rfl,
   dispatcher_errors_textual.2 gsDA id ⟨"data-analyzer", "d"⟩
     [("query", Jval.str "SELECT 1"), ("filePath", Jval.str "f.csv")]
     "f.csv" "SELECT 1" "boom" rfl (by decide) (by decide) (by decide) (by decide)⟩

/-! # Orchestration-loop lemmas and claims C1, C2 -/

theorem getLast_cons_of_ne {α : Type} (x : α) (l : List α) (h : l ≠ []) :
    (x :: l).getLast? = l.getLast? := by
  cases l with
  | nil => exact absurd rfl h
  | cons a t => rfl

theorem toolLoop_adds_assistant (env : Env) (now : String) :
    ∀ (fuel : Nat) (msgs : List ChatMsg) (resp : String),
      ∀ x ∈ (toolLoop env now fuel msgs resp).sessAdds, x.role = "assistant" := by
  intro fuel
  induction fuel with
  | zero => intro msgs resp x hx; simp [toolLoop] at hx
  | succ n ih =>
    intro msgs resp x hx
    rw [toolLoop] at hx
    cases hp : parseToolCalls (replyOf env msgs) with
    | none =>
      simp only [hp] at hx
      simp at hx
    | some calls =>
      simp only [hp] at hx
      simp only [List.mem_append] at hx
      rcases hx with hx | hx
      · obtain ⟨cc, _, rfl⟩ := List.mem_map.mp hx
        rfl
      · exact ih _ _ x hx

theorem toolLoop_always (env : Env) (now : String)
    (h : ∀ msgs, parseToolCalls (replyOf env msgs) ≠ none) :
    ∀ (fuel : Nat) (msgs : List ChatMsg) (resp : String), 1 ≤ fuel →
      (toolLoop env now fuel msgs resp).iterations = fuel ∧
      (toolLoop env now fuel msgs resp).replies.length = fuel ∧
      (toolLoop env now fuel msgs resp).replies.getLast?
        = some (toolLoop env now fuel msgs resp).response := by
  intro fuel
  induction fuel with
  | zero => intro msgs resp h1; simp at h1
  | succ n ih =>
    intro msgs resp _
    rw [toolLoop]
    cases hp : parseToolCalls (replyOf env msgs) with
    | none => exact absurd hp (h msgs)
    | some calls =>
      cases n with
      | zero => simp [hp, toolLoop]
      | succ m =>
        obtain ⟨e1, e2, e3⟩ := ih (msgs ++ (calls.map (fun c =>
          [({ role := "assistant", content := replyOf env msgs } : ChatMsg),
           { role := "user", content := "Tool " ++ c.name ++ " result:\n" ++
             executeSkill env.getSkill env.sqltools env.formatOut c.name c.params }])).flatten)
          (replyOf env msgs) (by omega)
        have hnil : (toolLoop env now (m + 1) (msgs ++ (calls.map (fun c =>
          [({ role := "assistant", content := replyOf env msgs } : ChatMsg),
           { role := "user", content := "Tool " ++ c.name ++ " result:\n" ++
             executeSkill env.getSkill env.sqltools env.formatOut c.name c.params }])).flatten)
          (replyOf env msgs)).replies ≠ [] := by
          intro hcon
          rw [hcon] at e2
          simp at e2
        simp only [hp]
        refine ⟨by simp [e1], by simp [e2], ?_⟩
        simp only [getLast_cons_of_ne _ _ hnil]
        exact e3

/-- C2: against a backend whose every reply carries at least one tool
call, the loop performs exactly the configured cap of 10 model-call
iterations, the returned response is the last reply produced, the cap
is recorded as a warning (`warned`), and the caller still receives an
ordinary `response`-typed delivery, not an error. -/
theorem loop_cap_exact_iterations (env : Env) (now : String) (st : AgentState)
    (m : InMsg) (c u ch cid : String)
    (hc : m.content = some c) (hc2 : c ≠ "")
    (hu : m.user = some u) (hu2 : u ≠ "")
    (hch : m.channel = some ch) (hch2 : ch ≠ "")
    (hav : env.modelAvail = true)
    (hcid : m.clientId = some cid) (hcid2 : cid ≠ "")
    (hmt : ¬ m.mtype = some "feishu")
    (halways : ∀ msgs, parseToolCalls (replyOf env msgs) ≠ none) :
    (processMessage env now st m).iterations = 10 ∧
    (processMessage env now st m).replies.length = 10 ∧
    (processMessage env now st m).replies.getLast?
      = some (processMessage env now st m).response ∧
    (processMessage env now st m).warned = true ∧
    (processMessage env now st m).outs
      = [Outbound.ws "response" (processMessage env now st m).response (ch ++ ":" ++ u)] := by
  have hv : (optFalsy (some c) || optFalsy (some u) || optFalsy (some ch)) = false := by
    simp [optFalsy, hc2, hu2, hch2]
  have e1 : ∀ msgs, (toolLoop env now 10 msgs "").iterations = 10 :=
    fun msgs => (toolLoop_always env now halways 10 msgs "" (by omega)).1
  have e2 : ∀ msgs, (toolLoop env now 10 msgs "").replies.length = 10 :=
    fun msgs => (toolLoop_always env now halways 10 msgs "" (by omega)).2.1
  have e3 : ∀ msgs, (toolLoop env now 10 msgs "").replies.getLast?
      = some (toolLoop env now 10 msgs "").response :=
    fun msgs => (toolLoop_always env now halways 10 msgs "" (by omega)).2.2
  have hcid' : (cid == "") = false := by simpa using hcid2
  have hmt' : (m.mtype == some "feishu") = false := by simpa using hmt
  simp only [processMessage, hv, Bool.false_eq_true, if_false, hc, hu, hch, hcid,
    Option.getD_some, hav, Bool.not_true, Bool.and_false]
  refine ⟨e1 _, e2 _, e3 _, by simp [e1], ?_⟩
  simp [sendOuts, hcid, hcid', hmt']

/-- Witness for C2: a concrete always-tool-calling backend drives the
loop through exactly 10 iterations and the caller gets a
`response`-typed delivery. -/
theorem loop_cap_exact_iterations_witness :
    (processMessage envLoopy "now" stEmpty msgWs).iterations = 10 ∧
    (processMessage envLoopy "now" stEmpty msgWs).replies.length = 10 ∧
    (processMessage envLoopy "now" stEmpty msgWs).replies.getLast?
      = some (processMessage envLoopy "now" stEmpty msgWs).response ∧
    (processMessage envLoopy "now" stEmpty msgWs).warned = true ∧
    (processMessage envLoopy "now" stEmpty msgWs).outs
      = [Outbound.ws "response" (processMessage envLoopy "now" stEmpty msgWs).response
          ("c2" ++ ":" ++ "u2")] :=
  loop_cap_exact_iterations envLoopy "now" stEmpty msgWs "hello" "u2" "c2" "k1"
    rfl (by decide) rfl (by decide) rfl (by decide) rfl rfl (by decide) (by decide)
    (fun msgs => by
      rw [show replyOf envLoopy msgs = "<t><q>x</q></t>" from rfl]
      decide)

/-- C1 counterexample: against a backend that replies once with a
single tagged tool call and then with a plain reply, the persisted
session ends the turn with one user-role entry but two assistant-role
entries — the model's intermediate tool-call reply is persisted (line
503 of loop.ts), contradicting the claim that exactly one
assistant-role entry is added. -/
theorem persisted_single_assistant_cex :
    ((jsGet "c:u" (processMessage envOneTool "now" stEmpty msgHi).state.sessions).map
      (fun s => (countRole "user" s.messages, countRole "assistant" s.messages)))
      = some (1, 2) := by
  decide

/-- C1 (amended): on a completed run the persisted session gains the
inbound message as its sole user-role entry, then one assistant-role
entry per executed tool call (the model's intermediate reply, line 503
of loop.ts), then the final reply as one more assistant-role entry; the
synthetic `Tool … result` messages are never persisted — every loop
addition carries the assistant role and the reply text.  The saved
store record equals the session's `toJSON`. -/
theorem persisted_transcript_shape (env : Env) (now : String) (st : AgentState)
    (m : InMsg) (c u ch : String)
    (hc : m.content = some c) (hc2 : c ≠ "")
    (hu : m.user = some u) (hu2 : u ≠ "")
    (hch : m.channel = some ch) (hch2 : ch ≠ "")
    (hav : env.modelAvail = true) :
    ∃ s1 : Session,
      jsGet (ch ++ ":" ++ u) (processMessage env now st m).state.sessions = some s1 ∧
      s1.messages
        = ((jsGet (ch ++ ":" ++ u) st.sessions).map Session.messages).getD []
          ++ ({ role := "user", content := c, timestamp := m.timestamp } ::
              ((processMessage env now st m).loopAdds ++
               [{ role := "assistant", content := (processMessage env now st m).response,
                  timestamp := now }])) ∧
      (∀ x ∈ (processMessage env now st m).loopAdds, x.role = "assistant") ∧
      jsGet (ch ++ ":" ++ u) (processMessage env now st m).state.store = some (toJSON s1) := by
  have hv : (optFalsy (some c) || optFalsy (some u) || optFalsy (some ch)) = false := by
    simp [optFalsy, hc2, hu2, hch2]
  simp only [processMessage, hv, Bool.false_eq_true, if_false, hc, hu, hch,
    Option.getD_some, hav, Bool.not_true, Bool.and_false]
  refine ⟨_, jsGet_insert_self _ _ _, ?_, ?_, jsGet_insert_self _ _ _⟩
  · cases hjs : jsGet (ch ++ ":" ++ u) st.sessions with
    | none => simp [hjs, addMessage]
    | some s => simp [hjs, addMessage]
  · intro x hx
    exact toolLoop_adds_assistant env now 10 _ "" x hx

/-- Witness for the amended C1 at a concrete one-tool-call run. -/
theorem persisted_transcript_shape_witness :
    ∃ s1 : Session,
      jsGet ("c" ++ ":" ++ "u") (processMessage envOneTool "now" stEmpty msgHi).state.sessions
        = some s1 ∧
      s1.messages
        = ((jsGet ("c" ++ ":" ++ "u") stEmpty.sessions).map Session.messages).getD []
          ++ ({ role := "user", content := "hi", timestamp := msgHi.timestamp } ::
              ((processMessage envOneTool "now" stEmpty msgHi).loopAdds ++
               [{ role := "assistant",
                  content := (processMessage envOneTool "now" stEmpty msgHi).response,
                  timestamp := "now" }])) ∧
      (∀ x ∈ (processMessage envOneTool "now" stEmpty msgHi).loopAdds,
        x.role = "assistant") ∧
      jsGet ("c" ++ ":" ++ "u") (processMessage envOneTool "now" stEmpty msgHi).state.store
        = some (toJSON s1) :=
  persisted_transcript_shape envOneTool "now" stEmpty msgHi "hi" "u" "c"
    rfl (by decide) rfl (by decide) rfl (by decide) rfl

/-! # Grammar B scanning lemmas -/

theorem noHit_of_head (pat : List Char) (h : Char) (hp : pat.head? = some h) :
    ∀ (x s : List Char), lacksChar x h = true → noHit pat x s = true := by
  cases pat with
  | nil => simp at hp
  | cons p0 ps =>
    have : p0 = h := by simpa using hp
    subst this
    exact fun x s hx => noHit_of_lacks ps x s hx

theorem tryTemplateAt_ne (c : Char) (t : List Char) (h : ¬ c = '$') :
    tryTemplateAt (c :: t) = none := by
  simp [tryTemplateAt, h]

theorem findTemplate_skip (sep : List Char) :
    ∀ s, lacksChar sep '$' = true → findTemplate (sep ++ s) = findTemplate s := by
  induction sep with
  | nil => intro s _; rfl
  | cons c cs ih =>
    intro s hl
    have h1 : ¬ c = '$' := by
      simp only [lacksChar, List.all_cons, Bool.and_eq_true] at hl
      simpa using hl.1
    have h2 : lacksChar cs '$' = true := by
      simp only [lacksChar, List.all_cons, Bool.and_eq_true] at hl
      exact hl.2
    rw [List.cons_append, findTemplate, tryTemplateAt_ne c _ h1]
    exact ih s h2

theorem findTemplate_none : ∀ s, lacksChar s '$' = true → findTemplate s = none := by
  intro s
  induction s with
  | nil => intro _; rfl
  | cons c cs ih =>
    intro hl
    have h1 : ¬ c = '$' := by
      simp only [lacksChar, List.all_cons, Bool.and_eq_true] at hl
      simpa using hl.1
    have h2 : lacksChar cs '$' = true := by
      simp only [lacksChar, List.all_cons, Bool.and_eq_true] at hl
      exact hl.2
    rw [findTemplate, tryTemplateAt_ne c _ h1]
    exact ih h2

theorem tryTemplateAt_render (name : List Char) (meth : Option (Char × List Char))
    (t3 : List Char) (hn : wfTagName name = true)
    (hm : match meth with
      | some mm => (mm.1 = '.' ∨ mm.1 = ':') ∧ wfTagName mm.2 = true
      | none => True) :
    tryTemplateAt ('$' :: '{' :: (name ++
      ((match meth with | some mm => mm.1 :: mm.2 | none => []) ++ ('}' :: t3))))
      = some (name, t3) := by
  obtain ⟨h1, h2⟩ : (!name.isEmpty) = true ∧ name.all tagChar = true := by
    simpa [wfTagName, Bool.and_eq_true] using hn
  have hie : name.isEmpty = false := by simpa using h1
  cases meth with
  | none =>
    have htw := takeWhile_append_stop (p := tagChar) name '}' t3 h2 (by decide)
    rw [tryTemplateAt]
    simp only [List.nil_append]
    simp [htw.1, htw.2, hie]
  | some mm =>
    obtain ⟨mc, mn⟩ := mm
    obtain ⟨hmc, hmn⟩ := hm
    obtain ⟨m1, m2⟩ : (!mn.isEmpty) = true ∧ mn.all tagChar = true := by
      simpa [wfTagName, Bool.and_eq_true] using hmn
    have hmie : mn.isEmpty = false := by simpa using m1
    have hmctag : tagChar mc = false := by
      rcases hmc with rfl | rfl <;> decide
    have hne1 : ¬ mc = '}' := by
      rcases hmc with rfl | rfl <;> decide
    have htw := takeWhile_append_stop (p := tagChar) name mc (mn ++ '}' :: t3) h2 hmctag
    have htw2 := takeWhile_append_stop (p := tagChar) mn '}' t3 m2 (by decide)
    have hshape : name ++ ((mc :: mn) ++ ('}' :: t3)) = name ++ (mc :: (mn ++ '}' :: t3)) := by
      simp
    rw [tryTemplateAt]
    simp only [hshape]
    simp [htw.1, htw.2, hie, hne1, hmc, htw2.1, htw2.2, hmie]

theorem dropWhile_append_all {p : Char → Bool} :
    ∀ (a l : List Char), a.all p = true → (a ++ l).dropWhile p = l.dropWhile p := by
  intro a
  induction a with
  | nil => intro l _; rfl
  | cons c cs ih =>
    intro l ha
    simp only [List.all_cons, Bool.and_eq_true] at ha
    rw [List.cons_append, List.dropWhile_cons]
    simp [ha.1, ih l ha.2]

theorem dropWhile_head_neg {p : Char → Bool} (l : List Char) (c : Char)
    (h : l.head? = some c) (hc : p c = false) : l.dropWhile p = l := by
  cases l with
  | nil => simp at h
  | cons x t =>
    have : x = c := by simpa using h
    subst this
    simp [List.dropWhile_cons, hc]

theorem trim_wrap (b : List Char) (ch cl : Char)
    (hh : b.head? = some ch) (hwh : wsChar ch = false)
    (hl : b.getLast? = some cl) (hwl : wsChar cl = false) :
    trimChars ('\n' :: (b ++ ['\n'])) = b := by
  rw [trimChars]
  have d1 : ('\n' :: (b ++ ['\n'])).dropWhile wsChar = b ++ ['\n'] := by
    rw [List.dropWhile_cons]
    simp only [show wsChar '\n' = true from rfl, if_true]
    apply dropWhile_head_neg (b ++ ['\n']) ch _ hwh
    cases b with
    | nil => simp at hh
    | cons x t => simpa using hh
  rw [d1, List.reverse_append]
  have d2 : (['\n'].reverse ++ b.reverse).dropWhile wsChar = b.reverse.dropWhile wsChar := by
    apply dropWhile_append_all
    decide
  rw [d2]
  have d3 : b.reverse.dropWhile wsChar = b.reverse := by
    apply dropWhile_head_neg b.reverse cl _ hwl
    rw [List.head?_reverse]
    exact hl
  rw [d3, List.reverse_reverse]

theorem findJsonBlock_render (mid body rest : List Char)
    (hmid : lacksChar mid '`' = true) (hbody : lacksChar body '`' = true)
    (ch cl : Char) (hh : body.head? = some ch) (hwh : wsChar ch = false)
    (hl : body.getLast? = some cl) (hwl : wsChar cl = false) :
    findJsonBlock (mid ++ (fenceJson ++ ('\n' :: (body ++ ('\n' :: (fence ++ rest))))))
      = some (body, rest) := by
  rw [findJsonBlock]
  have hs1 : splitOnFirst fenceJson
      (mid ++ (fenceJson ++ ('\n' :: (body ++ ('\n' :: (fence ++ rest))))))
      = some (mid, '\n' :: (body ++ ('\n' :: (fence ++ rest)))) := by
    have := splitOnFirst_clean fenceJson mid
      (fenceJson ++ ('\n' :: (body ++ ('\n' :: (fence ++ rest)))))
      (noHit_of_head fenceJson '`' rfl mid _ hmid) (headMatch_self _ _)
    rwa [drop_len_append] at this
  have hshape : ('\n' :: (body ++ ('\n' :: (fence ++ rest))))
      = ('\n' :: (body ++ ['\n'])) ++ (fence ++ rest) := by simp
  have hlk : lacksChar ('\n' :: (body ++ ['\n'])) '`' = true := by
    rw [show ('\n' :: (body ++ ['\n'])) = ['\n'] ++ (body ++ ['\n']) from rfl,
      lacksChar_append, lacksChar_append, hbody]
    decide
  have hs2 : splitOnFirst fence ('\n' :: (body ++ ('\n' :: (fence ++ rest))))
      = some ('\n' :: (body ++ ['\n']), rest) := by
    rw [hshape]
    have := splitOnFirst_clean fence ('\n' :: (body ++ ['\n'])) (fence ++ rest)
      (noHit_of_head fence '`' rfl _ _ hlk) (headMatch_self _ _)
    rwa [drop_len_append] at this
  rw [hs1]
  simp only [hs2]
  rw [trim_wrap body ch cl hh hwh hl hwl]

/-! # JSON rendering and parsing lemmas -/

theorem digit_not_ws {d : Char} (h : d.isDigit = true) : wsChar d = false := by
  cases hws : wsChar d
  · rfl
  · exfalso
    have hcs : ((d = ' ' ∨ d = '\t') ∨ d = '\n') ∨ d = '\r' := by
      simpa [wsChar, Bool.or_eq_true] using hws
    rcases hcs with ((rfl | rfl) | rfl) | rfl <;> exact absurd h (by decide)

theorem ofNat_digit_toNat (m : Nat) (h : m < 10) : (Char.ofNat (48 + m)).toNat = 48 + m := by
  interval_cases m <;> decide

theorem ofNat_digit_isDigit (m : Nat) (h : m < 10) : (Char.ofNat (48 + m)).isDigit = true := by
  interval_cases m <;> decide

theorem digitsToNat_append (l : List Char) (c : Char) :
    digitsToNat (l ++ [c]) = digitsToNat l * 10 + (c.toNat - 48) := by
  rw [digitsToNat, digitsToNat, List.foldl_append]
  rfl

theorem natDigitsAux_spec :
    ∀ (fuel n : Nat), n < fuel →
      (natDigitsAux fuel n).all Char.isDigit = true ∧
      natDigitsAux fuel n ≠ [] ∧
      digitsToNat (natDigitsAux fuel n) = n := by
  intro fuel
  induction fuel with
  | zero => intro n h; omega
  | succ f ih =>
    intro n h
    rw [natDigitsAux]
    by_cases h10 : n < 10
    · rw [if_pos h10]
      refine ⟨?_, by simp, ?_⟩
      · interval_cases n <;> decide
      · interval_cases n <;> decide
    · rw [if_neg h10]
      have hdiv : n / 10 < f := by
        have h1 : n / 10 < n := Nat.div_lt_self (by omega) (by omega)
        omega
      obtain ⟨ha, hne, hval⟩ := ih (n / 10) hdiv
      have hm10 : n % 10 < 10 := Nat.mod_lt _ (by omega)
      refine ⟨?_, by simp, ?_⟩
      · rw [List.all_append, ha]
        simp only [Bool.true_and, List.all_cons, List.all_nil, Bool.and_true]
        exact ofNat_digit_isDigit _ hm10
      · rw [digitsToNat_append, hval, ofNat_digit_toNat _ hm10]
        omega

theorem natDigits_spec (n : Nat) :
    (natDigits n).all Char.isDigit = true ∧ natDigits n ≠ [] ∧
      digitsToNat (natDigits n) = n :=
  natDigitsAux_spec (n + 1) n (Nat.lt_succ_self n)

theorem parseStringLit_ne (c : Char) (t : List Char) (h : ¬ c = '"') :
    parseStringLit (c :: t) = none := by
  simp [parseStringLit, h]

theorem parseStringLit_render (k rest : List Char) (hk : k.all jsonPlainChar = true) :
    parseStringLit ('"' :: (k ++ '"' :: rest)) = some (String.mk k, rest) := by
  have htw := takeWhile_append_stop (p := jsonPlainChar) k '"' rest hk (by decide)
  rw [parseStringLit]
  simp [htw.1, htw.2]

theorem headMatch_head_ne (lit : List Char) (l0 : Char) (hl : lit.head? = some l0)
    (c : Char) (hc : ¬ l0 = c) (t : List Char) : headMatch lit (c :: t) = false := by
  cases lit with
  | nil => simp at hl
  | cons p ps =>
    have hp : p = l0 := by simpa using hl
    subst hp
    have : (p == c) = false := by simpa using hc
    simp [headMatch, this]

theorem clean_plain {c : Char} (h : cleanChar c = true) : jsonPlainChar c = true := by
  simp only [cleanChar, Bool.and_eq_true] at h
  simp only [jsonPlainChar, Bool.and_eq_true]
  exact ⟨h.1.1.1, h.1.1.2⟩

theorem all_clean_plain (l : List Char) (h : l.all cleanChar = true) :
    l.all jsonPlainChar = true := by
  rw [List.all_eq_true] at *
  exact fun c hc => clean_plain (h c hc)

theorem renderVal_cons (v : Jval) :
    ∃ c cs, renderVal v = c :: cs ∧ wsChar c = false := by
  cases v with
  | str s => exact ⟨'"', _, rfl, by decide⟩
  | num n =>
    rw [renderVal, intDec]
    by_cases hneg : n < 0
    · rw [if_pos hneg]
      exact ⟨'-', _, rfl, by decide⟩
    · rw [if_neg hneg]
      obtain ⟨hall, hne, _⟩ := natDigits_spec n.toNat
      cases hnd : natDigits n.toNat with
      | nil => exact absurd hnd hne
      | cons d ds =>
        refine ⟨d, ds, rfl, ?_⟩
        rw [hnd] at hall
        simp only [List.all_cons, Bool.and_eq_true] at hall
        exact digit_not_ws hall.1
  | bool b =>
    cases b
    · exact ⟨'f', _, rfl, by decide⟩
    · exact ⟨'t', _, rfl, by decide⟩
  | null => exact ⟨'n', _, rfl, by decide⟩

theorem parseJval_render (v : Jval) (rest : List Char) (hv : wfJval v = true)
    (htail : rest.head? = some ',' ∨ rest.head? = some '}') :
    parseJval (renderVal v ++ rest) = some (v, rest) := by
  obtain ⟨r0, rr, hrest, hr0d⟩ :
      ∃ r0 rr, rest = r0 :: rr ∧ Char.isDigit r0 = false := by
    rcases htail with h | h
    · cases rest with
      | nil => simp at h
      | cons a t =>
        have ha : a = ',' := by simpa using h
        subst ha
        exact ⟨',', t, rfl, by decide⟩
    · cases rest with
      | nil => simp at h
      | cons a t =>
        have ha : a = '}' := by simpa using h
        subst ha
        exact ⟨'}', t, rfl, by decide⟩
  cases v with
  | str s =>
    have hs : s.data.all jsonPlainChar = true :=
      all_clean_plain _ (by simpa [wfJval] using hv)
    rw [show renderVal (.str s) ++ rest = '"' :: (s.data ++ '"' :: rest) by
      simp [renderVal]]
    rw [parseJval, parseStringLit_render _ _ hs]
  | num n =>
    rw [renderVal, intDec]
    by_cases hneg : n < 0
    · rw [if_pos hneg]
      obtain ⟨hall, hne, hval⟩ := natDigits_spec (-n).toNat
      have hie : (natDigits (-n).toNat).isEmpty = false := by
        cases hnd : natDigits (-n).toNat with
        | nil => exact absurd hnd hne
        | cons _ _ => rfl
      subst hrest
      have htw := takeWhile_append_stop (p := Char.isDigit) (natDigits (-n).toNat) r0 rr
        hall hr0d
      rw [show ('-' :: natDigits (-n).toNat) ++ (r0 :: rr)
          = '-' :: (natDigits (-n).toNat ++ r0 :: rr) from rfl]
      simp only [parseJval, parseStringLit_ne '-' _ (by decide),
        headMatch_head_ne "true".data 't' rfl '-' (by decide),
        headMatch_head_ne "false".data 'f' rfl '-' (by decide),
        headMatch_head_ne "null".data 'n' rfl '-' (by decide),
        Bool.false_eq_true, if_false]
      simp only [htw.1, htw.2, hie, Bool.false_eq_true, if_false, if_pos rfl]
      rw [hval]
      have hx : (((-n).toNat : Nat) : Int) = -n := Int.toNat_of_nonneg (by omega)
      simp [hx]
    · rw [if_neg hneg]
      obtain ⟨hall, hne, hval⟩ := natDigits_spec n.toNat
      obtain ⟨d, ds, hnd⟩ : ∃ d ds, natDigits n.toNat = d :: ds := by
        cases hnd : natDigits n.toNat with
        | nil => exact absurd hnd hne
        | cons d ds => exact ⟨d, ds, rfl⟩
      have hd : d.isDigit = true := by
        rw [hnd] at hall
        simp only [List.all_cons, Bool.and_eq_true] at hall
        exact hall.1
      subst hrest
      have htw := takeWhile_append_stop (p := Char.isDigit) (natDigits n.toNat) r0 rr
        hall hr0d
      rw [hnd] at htw
      rw [hnd, show (d :: ds) ++ (r0 :: rr) = d :: (ds ++ r0 :: rr) from rfl]
      have hdq : ¬ d = '"' := pred_ne hd (by decide)
      have hdm : ¬ d = '-' := pred_ne hd (by decide)
      have hdt : ¬ ('t' : Char) = d := fun e => (pred_ne hd (by decide)) e.symm
      have hdf : ¬ ('f' : Char) = d := fun e => (pred_ne hd (by decide)) e.symm
      have hdn : ¬ ('n' : Char) = d := fun e => (pred_ne hd (by decide)) e.symm
      simp only [parseJval, parseStringLit_ne d _ hdq,
        headMatch_head_ne "true".data 't' rfl d hdt,
        headMatch_head_ne "false".data 'f' rfl d hdf,
        headMatch_head_ne "null".data 'n' rfl d hdn,
        Bool.false_eq_true, if_false]
      rw [if_neg hdm, if_pos hd]
      rw [show d :: (ds ++ r0 :: rr) = (d :: ds) ++ (r0 :: rr) from rfl, htw.1, htw.2]
      rw [show digitsToNat (d :: ds) = n.toNat from hnd ▸ hval]
      have hx : ((n.toNat : Nat) : Int) = n := Int.toNat_of_nonneg (by omega)
      simp [hx]
  | bool b => cases b <;> rfl
  | null => rfl

theorem parsePair_render (sp : List Char) (k : String) (v : Jval) (tail : List Char)
    (hsp : sp.all wsChar = true)
    (hk : k.data.all jsonPlainChar = true) (hv : wfJval v = true)
    (htail : tail.head? = some ',' ∨ tail.head? = some '}') :
    parsePair (sp ++ ('"' :: (k.data ++ '"' :: ':' :: ' ' :: (renderVal v ++ tail))))
      = some ((k, v), tail) := by
  have s1 : skipWs (sp ++ ('"' :: (k.data ++ '"' :: ':' :: ' ' :: (renderVal v ++ tail))))
      = '"' :: (k.data ++ '"' :: ':' :: ' ' :: (renderVal v ++ tail)) := by
    rw [skipWs, dropWhile_append_all _ _ hsp]
    exact dropWhile_head_neg _ '"' rfl (by decide)
  have s2 : skipWs (':' :: ' ' :: (renderVal v ++ tail))
      = ':' :: ' ' :: (renderVal v ++ tail) :=
    dropWhile_head_neg _ ':' rfl (by decide)
  have s3 : skipWs (' ' :: (renderVal v ++ tail)) = renderVal v ++ tail := by
    obtain ⟨c0, cs, hc, hcw⟩ := renderVal_cons v
    rw [skipWs, List.dropWhile_cons]
    simp only [show wsChar ' ' = true from rfl, if_true]
    apply dropWhile_head_neg _ c0 _ hcw
    rw [hc]
    rfl
  have s4 : skipWs tail = tail := by
    rcases htail with h | h
    · cases tail with
      | nil => simp at h
      | cons a t =>
        have ha : a = ',' := by simpa using h
        subst ha
        exact dropWhile_head_neg _ ',' rfl (by decide)
    · cases tail with
      | nil => simp at h
      | cons a t =>
        have ha : a = '}' := by simpa using h
        subst ha
        exact dropWhile_head_neg _ '}' rfl (by decide)
  rw [parsePair, s1, parseStringLit_render _ _ hk]
  simp only [s2, if_true]
  simp only [s3, parseJval_render v tail hv htail, s4]

theorem parseMembersAux_render :
    ∀ (fields : List (String × Jval)) (sp : List Char) (fuel : Nat)
      (acc : List (String × Jval)) (rest : List Char),
      sp.all wsChar = true →
      fields.all (fun kv => kv.1.data.all cleanChar && wfJval kv.2) = true →
      fields ≠ [] → fields.length ≤ fuel →
      parseMembersAux fuel (sp ++ (renderMembers fields ++ '}' :: rest)) acc
        = some (fields.foldl (fun a kv => jsInsert kv.1 kv.2 a) acc, '}' :: rest) := by
  intro fields
  induction fields with
  | nil => intro sp fuel acc rest _ _ hne _; exact absurd rfl hne
  | cons kv fs ih =>
    intro sp fuel acc rest hsp hall hne hlen
    simp only [List.all_cons, Bool.and_eq_true] at hall
    obtain ⟨⟨hk, hv⟩, hall2⟩ := hall
    have hkp : kv.1.data.all jsonPlainChar = true := all_clean_plain _ hk
    cases fuel with
    | zero => simp at hlen
    | succ f =>
      cases fs with
      | nil =>
        have hshape : sp ++ (renderMembers [kv] ++ '}' :: rest)
            = sp ++ ('"' :: (kv.1.data ++ '"' :: ':' :: ' ' ::
                (renderVal kv.2 ++ ('}' :: rest)))) := by
          simp [renderMembers, renderPairB]
        have hp := parsePair_render sp kv.1 kv.2 ('}' :: rest) hsp hkp hv (Or.inr rfl)
        rw [hshape, parseMembersAux, hp]
        rfl
      | cons g gs =>
        have hshape : sp ++ (renderMembers (kv :: g :: gs) ++ '}' :: rest)
            = sp ++ ('"' :: (kv.1.data ++ '"' :: ':' :: ' ' :: (renderVal kv.2 ++
                (',' :: ' ' :: (renderMembers (g :: gs) ++ '}' :: rest))))) := by
          simp [renderMembers, renderPairB]
        have hp := parsePair_render sp kv.1 kv.2
          (',' :: ' ' :: (renderMembers (g :: gs) ++ '}' :: rest)) hsp hkp hv (Or.inl rfl)
        rw [hshape, parseMembersAux, hp]
        have hrec := ih [' '] f (jsInsert kv.1 kv.2 acc) rest (by decide) hall2
          (by simp) (by simp only [List.length_cons] at hlen ⊢; omega)
        rw [show ([' '] : List Char) ++ (renderMembers (g :: gs) ++ '}' :: rest)
            = ' ' :: (renderMembers (g :: gs) ++ '}' :: rest) from rfl] at hrec
        exact hrec

theorem renderMembers_len (fields : List (String × Jval)) :
    fields.length ≤ (renderMembers fields).length := by
  induction fields with
  | nil => simp [renderMembers]
  | cons kv fs ih =>
    rw [renderMembers, renderPairB]
    simp only [List.length_append, List.length_cons]
    omega

theorem jsonParse_render (obj : List (String × Jval)) (hwf : wfObj obj = true) :
    jsonParse (renderObj obj) = some obj := by
  obtain ⟨hall, hdk⟩ : obj.all (fun kv => kv.1.data.all cleanChar && wfJval kv.2) = true ∧
      distinctKeysS obj = true := by
    simpa [wfObj, Bool.and_eq_true] using hwf
  cases obj with
  | nil => rfl
  | cons kv fs =>
    have hRr : renderObj (kv :: fs) = '{' :: (renderMembers (kv :: fs) ++ ['}']) := rfl
    have hlen : (kv :: fs).length ≤ ('{' :: (renderMembers (kv :: fs) ++ ['}'])).length := by
      have hb := renderMembers_len (kv :: fs)
      simp only [List.length_cons, List.length_append] at hb ⊢
      omega
    have hmem := parseMembersAux_render (kv :: fs) []
      (('{' :: (renderMembers (kv :: fs) ++ ['}'])).length) [] []
      (by decide) hall (by simp) hlen
    rw [List.nil_append] at hmem
    have s0 : skipWs ('{' :: (renderMembers (kv :: fs) ++ ['}']))
        = '{' :: (renderMembers (kv :: fs) ++ ['}']) :=
      dropWhile_head_neg _ '{' rfl (by decide)
    have s1 : skipWs (renderMembers (kv :: fs) ++ ['}'])
        = renderMembers (kv :: fs) ++ ['}'] :=
      dropWhile_head_neg _ '"' rfl (by decide)
    have hM : renderMembers (kv :: fs) ++ ['}']
        = '"' :: (kv.1.data ++ '"' :: ':' :: ' ' :: (renderVal kv.2 ++
            ((if fs.isEmpty then [] else [',', ' ']) ++ (renderMembers fs ++ ['}'])))) := by
      rw [renderMembers, renderPairB]
      simp
    rw [jsonParse, hRr]
    simp only [s0, if_true]
    rw [s1]
    simp only [hM]
    rw [if_neg (by decide : ¬ ('"' : Char) = '}'), ← hM, hmem]
    have hfold := foldl_jsInsert_fresh (kv :: fs) [] hdk (fun kv2 _ => rfl)
    rw [hfold]
    simp [skipWs]

/-! # Grammar B: document-level scan -/

theorem splitOnFirst_rest_le (pat : List Char) (s pre post : List Char)
    (h : splitOnFirst pat s = some (pre, post)) : post.length ≤ s.length := by
  have hs := splitOnFirst_sound pat s pre post h
  rw [hs]
  simp only [List.length_append]
  omega

theorem findJsonBlock_rest_lt (t js rest : List Char)
    (h : findJsonBlock t = some (js, rest)) : rest.length < t.length := by
  rw [findJsonBlock] at h
  cases h1 : splitOnFirst fenceJson t with
  | none =>
    simp only [h1] at h
    exact absurd h (by simp)
  | some p =>
    obtain ⟨pre, after⟩ := p
    simp only [h1] at h
    cases h2 : splitOnFirst fence after with
    | none =>
      simp only [h2] at h
      exact absurd h (by simp)
    | some q =>
      obtain ⟨raw, rest'⟩ := q
      simp only [h2, Option.some.injEq, Prod.mk.injEq] at h
      obtain ⟨e1, e2⟩ := h
      subst e2
      have l1 := splitOnFirst_sound _ _ _ _ h1
      have l2 := splitOnFirst_sound _ _ _ _ h2
      have hf1 : 0 < fenceJson.length := by decide
      have hf2 : 0 < fence.length := by decide
      rw [l1, l2]
      simp only [List.length_append]
      omega

theorem tryTemplateAt_rest_lt :
    ∀ (s n rest : List Char), tryTemplateAt s = some (n, rest) → rest.length < s.length := by
  intro s n rest h
  cases s with
  | nil => simp [tryTemplateAt] at h
  | cons c t =>
    simp only [tryTemplateAt] at h
    split at h
    · split at h
      · exact absurd h (by simp)
      · next b t1 =>
        split at h
        · split at h
          · exact absurd h (by simp)
          · split at h
            · exact absurd h (by simp)
            · next d t3 ht2 =>
              have hd1 : t3.length < t1.length := by
                have hle := dropWhile_len_le tagChar t1
                rw [ht2] at hle
                simp only [List.length_cons] at hle
                omega
              split at h
              · simp only [Option.some.injEq, Prod.mk.injEq] at h
                obtain ⟨e1, e2⟩ := h
                subst e2
                simp only [List.length_cons]
                omega
              · split at h
                · split at h
                  · exact absurd h (by simp)
                  · split at h
                    · exact absurd h (by simp)
                    · next e t5 ht4 =>
                      split at h
                      · simp only [Option.some.injEq, Prod.mk.injEq] at h
                        obtain ⟨e1, e2⟩ := h
                        subst e2
                        have hd2 : t5.length < t3.length := by
                          have hle := dropWhile_len_le tagChar t3
                          rw [ht4] at hle
                          simp only [List.length_cons] at hle
                          omega
                        simp only [List.length_cons]
                        omega
                      · exact absurd h (by simp)
                · exact absurd h (by simp)
        · exact absurd h (by simp)
    · exact absurd h (by simp)

theorem findTemplate_rest_lt :
    ∀ (s n js rest : List Char), findTemplate s = some (n, js, rest) →
      rest.length < s.length := by
  intro s
  induction s with
  | nil => intro n js rest h; simp [findTemplate] at h
  | cons c cs ih =>
    intro n js rest h
    rw [findTemplate] at h
    cases ht : tryTemplateAt (c :: cs) with
    | some p =>
      obtain ⟨n', t3⟩ := p
      rw [ht] at h
      cases hb : findJsonBlock t3 with
      | some q =>
        obtain ⟨js', rest'⟩ := q
        simp only [hb, Option.some.injEq, Prod.mk.injEq] at h
        obtain ⟨e1, e2, e3⟩ := h
        subst e3
        have h1 := tryTemplateAt_rest_lt (c :: cs) n' t3 ht
        have h2 := findJsonBlock_rest_lt t3 js' rest' hb
        omega
      | none =>
        simp only [hb] at h
        have := ih n js rest h
        simp only [List.length_cons]
        omega
    | none =>
      rw [ht] at h
      have := ih n js rest h
      simp only [List.length_cons]
      omega

theorem templateMatchesAux_nil : ∀ f, templateMatchesAux f [] = [] := by
  intro f
  cases f with
  | zero => rfl
  | succ n => rw [templateMatchesAux]; rfl

theorem templateMatchesAux_congr :
    ∀ f1 f2 s, s.length ≤ f1 → s.length ≤ f2 →
      templateMatchesAux f1 s = templateMatchesAux f2 s := by
  intro f1
  induction f1 with
  | zero =>
    intro f2 s h1 _
    have hs : s = [] := List.length_eq_zero.mp (Nat.le_zero.mp h1)
    subst hs
    rw [templateMatchesAux_nil, templateMatchesAux_nil]
  | succ n ih =>
    intro f2 s h1 h2
    cases s with
    | nil => rw [templateMatchesAux_nil, templateMatchesAux_nil]
    | cons c cs =>
      cases f2 with
      | zero => simp at h2
      | succ m =>
        rw [templateMatchesAux, templateMatchesAux]
        cases hf : findTemplate (c :: cs) with
        | none => rfl
        | some r =>
          obtain ⟨nm, js, rest⟩ := r
          have hlt := findTemplate_rest_lt _ _ _ _ hf
          simp only [List.length_cons] at hlt h1 h2
          have e := ih m rest (by omega) (by omega)
          simp [e]

theorem wfTmpl_parts (t : TmplSpec) (hw : wfTmpl t = true) :
    lacksChar t.sep '$' = true ∧ lacksChar t.sep '<' = true ∧ lacksChar t.sep '`' = true ∧
    wfTagName t.name = true ∧
    (match t.meth with
     | some mm => (mm.1 = '.' ∨ mm.1 = ':') ∧ wfTagName mm.2 = true
     | none => True) ∧
    lacksChar t.mid '`' = true ∧ lacksChar t.mid '<' = true ∧ wfObj t.obj = true := by
  simp only [wfTmpl, Bool.and_eq_true] at hw
  obtain ⟨⟨⟨⟨⟨⟨⟨h1, h2⟩, h3⟩, h4⟩, h5⟩, h6⟩, h7⟩, h8⟩ := hw
  refine ⟨h1, h2, h3, h4, ?_, h6, h7, h8⟩
  cases hm : t.meth with
  | none => trivial
  | some mm =>
    rw [hm] at h5
    simp only [Bool.and_eq_true, Bool.or_eq_true, beq_iff_eq] at h5
    exact ⟨h5.1, h5.2⟩

theorem renderVal_lacks (x : Char) (hcx : cleanChar x = false)
    (hdx : Char.isDigit x = false) (hq : (('"' : Char) == x) = false)
    (hm : (('-' : Char) == x) = false)
    (ht : lacksChar "true".data x = true) (hf : lacksChar "false".data x = true)
    (hnu : lacksChar "null".data x = true) :
    ∀ v : Jval, wfJval v = true → lacksChar (renderVal v) x = true := by
  intro v hv
  cases v with
  | str s =>
    have h1 : lacksChar s.data x = true :=
      lacks_of_pred hcx s.data (by simpa [wfJval] using hv)
    rw [show renderVal (.str s) = ['"'] ++ (s.data ++ ['"']) from rfl,
      lacksChar_append, lacksChar_append, h1]
    simp [lacksChar, hq]
  | num n =>
    rw [renderVal, intDec]
    by_cases hneg : n < 0
    · rw [if_pos hneg]
      have h1 : lacksChar (natDigits (-n).toNat) x = true :=
        lacks_of_pred hdx _ (natDigits_spec _).1
      rw [show '-' :: natDigits (-n).toNat = ['-'] ++ natDigits (-n).toNat from rfl,
        lacksChar_append, h1]
      simp [lacksChar, hm]
    · rw [if_neg hneg]
      exact lacks_of_pred hdx _ (natDigits_spec _).1
  | bool b =>
    cases b
    · simpa [renderVal] using hf
    · simpa [renderVal] using ht
  | null => simpa [renderVal] using hnu

theorem renderMembers_lacks (x : Char) (hcx : cleanChar x = false)
    (hdx : Char.isDigit x = false) (hq : (('"' : Char) == x) = false)
    (hm : (('-' : Char) == x) = false) (hco : ((':' : Char) == x) = false)
    (hsp : ((' ' : Char) == x) = false) (hcm : ((',' : Char) == x) = false)
    (ht : lacksChar "true".data x = true) (hf : lacksChar "false".data x = true)
    (hnu : lacksChar "null".data x = true) :
    ∀ fields : List (String × Jval),
      fields.all (fun kv => kv.1.data.all cleanChar && wfJval kv.2) = true →
      lacksChar (renderMembers fields) x = true := by
  intro fields
  induction fields with
  | nil => intro _; rfl
  | cons kv fs ih =>
    intro hall
    simp only [List.all_cons, Bool.and_eq_true] at hall
    obtain ⟨⟨hk, hv⟩, hall2⟩ := hall
    have h1 : lacksChar kv.1.data x = true := lacks_of_pred hcx _ hk
    have h2 : lacksChar (renderVal kv.2) x = true :=
      renderVal_lacks x hcx hdx hq hm ht hf hnu kv.2 hv
    rw [renderMembers, renderPairB]
    rw [show ('"' :: (kv.1.data ++ '"' :: ':' :: ' ' :: renderVal kv.2)) ++
        (if fs.isEmpty then [] else [',', ' ']) ++ renderMembers fs
        = ['"'] ++ kv.1.data ++ ['"', ':', ' '] ++ renderVal kv.2 ++
          (if fs.isEmpty then [] else [',', ' ']) ++ renderMembers fs from by simp]
    simp only [lacksChar_append]
    rw [h1, h2, ih hall2]
    have hsep : lacksChar (if fs.isEmpty then [] else [',', ' ']) x = true := by
      cases fs.isEmpty <;> simp [lacksChar, hcm, hsp]
    rw [hsep]
    simp [lacksChar, hq, hco, hsp]

theorem renderObj_lacks (x : Char) (hcx : cleanChar x = false)
    (hdx : Char.isDigit x = false) (hq : (('"' : Char) == x) = false)
    (hm : (('-' : Char) == x) = false) (hco : ((':' : Char) == x) = false)
    (hsp : ((' ' : Char) == x) = false) (hcm : ((',' : Char) == x) = false)
    (hob : (('{' : Char) == x) = false) (hcb : (('}' : Char) == x) = false)
    (ht : lacksChar "true".data x = true) (hf : lacksChar "false".data x = true)
    (hnu : lacksChar "null".data x = true)
    (obj : List (String × Jval)) (hwf : wfObj obj = true) :
    lacksChar (renderObj obj) x = true := by
  have hall : obj.all (fun kv => kv.1.data.all cleanChar && wfJval kv.2) = true := by
    simp only [wfObj, Bool.and_eq_true] at hwf
    exact hwf.1
  rw [show renderObj obj = ['{'] ++ renderMembers obj ++ ['}'] from by simp [renderObj]]
  simp only [lacksChar_append]
  rw [renderMembers_lacks x hcx hdx hq hm hco hsp hcm ht hf hnu obj hall]
  simp [lacksChar, hob, hcb]

theorem renderTmpl_lacks_lt (t : TmplSpec) (hw : wfTmpl t = true) :
    lacksChar (renderTmpl t) '<' = true := by
  obtain ⟨_, hsep, _, hname, hmeth, _, hmid, hobj⟩ := wfTmpl_parts t hw
  obtain ⟨_, hnall⟩ : (!t.name.isEmpty) = true ∧ t.name.all tagChar = true := by
    simpa [wfTagName, Bool.and_eq_true] using hname
  have hn : lacksChar t.name '<' = true := lacks_of_pred (by decide) _ hnall
  have hobjl : lacksChar (renderObj t.obj) '<' = true :=
    renderObj_lacks '<' (by decide) (by decide) (by decide) (by decide) (by decide)
      (by decide) (by decide) (by decide) (by decide) (by decide) (by decide) (by decide)
      t.obj hobj
  have hmp : lacksChar (renderMeth t.meth) '<' = true := by
    cases hmm : t.meth with
    | none => rfl
    | some mm =>
      obtain ⟨mc, mn⟩ := mm
      simp only [hmm] at hmeth
      obtain ⟨hc, hmn⟩ := hmeth
      obtain ⟨_, hmall⟩ : (!mn.isEmpty) = true ∧ mn.all tagChar = true := by
        simpa [wfTagName, Bool.and_eq_true] using hmn
      have h2 : lacksChar mn '<' = true := lacks_of_pred (by decide) _ hmall
      have h1 : (mc == '<') = false := by rcases hc with rfl | rfl <;> decide
      rw [renderMeth, show mc :: mn = [mc] ++ mn from rfl, lacksChar_append, h2]
      simp [lacksChar, h1]
  rw [show renderTmpl t = t.sep ++ ['$', '{'] ++ t.name ++ renderMeth t.meth ++ ['}'] ++
      t.mid ++ fenceJson ++ ['\n'] ++ renderObj t.obj ++ ['\n'] ++ fence from by
    rw [renderTmpl]; simp]
  simp only [lacksChar_append]
  rw [hsep, hn, hmp, hmid, hobjl]
  decide

theorem renderDocB_lacks_lt :
    ∀ (items : List TmplSpec) (trail : List Char),
      items.all wfTmpl = true → lacksChar trail '<' = true →
      lacksChar (renderDocB items trail) '<' = true := by
  intro items
  induction items with
  | nil => intro trail _ h; exact h
  | cons t ts ih =>
    intro trail hall htr
    simp only [List.all_cons, Bool.and_eq_true] at hall
    rw [renderDocB, lacksChar_append, renderTmpl_lacks_lt t hall.1, ih trail hall.2 htr]
    rfl

theorem tryTemplateAt_render_none (name t3 : List Char) (hn : wfTagName name = true) :
    tryTemplateAt ('$' :: '{' :: (name ++ ('}' :: t3))) = some (name, t3) := by
  have h := tryTemplateAt_render name none t3 hn trivial
  simpa using h

theorem tryTemplateAt_render_some (name : List Char) (mc : Char) (mn t3 : List Char)
    (hn : wfTagName name = true) (hc : mc = '.' ∨ mc = ':') (hm : wfTagName mn = true) :
    tryTemplateAt ('$' :: '{' :: (name ++ (mc :: (mn ++ ('}' :: t3))))) = some (name, t3) := by
  have h := tryTemplateAt_render name (some (mc, mn)) t3 hn ⟨hc, hm⟩
  simpa using h

theorem findTemplate_renderTmpl (t : TmplSpec) (rest : List Char) (hw : wfTmpl t = true) :
    findTemplate (renderTmpl t ++ rest) = some (t.name, renderObj t.obj, rest) := by
  obtain ⟨hsep, _, _, hname, hmeth, hmidb, _, hobj⟩ := wfTmpl_parts t hw
  have hh : (renderObj t.obj).head? = some '{' := rfl
  have hl : (renderObj t.obj).getLast? = some '}' := by
    rw [show renderObj t.obj = ('{' :: renderMembers t.obj) ++ ['}'] from by simp [renderObj]]
    exact List.getLast?_concat _
  have hbody : lacksChar (renderObj t.obj) '`' = true :=
    renderObj_lacks '`' (by decide) (by decide) (by decide) (by decide) (by decide)
      (by decide) (by decide) (by decide) (by decide) (by decide) (by decide) (by decide)
      t.obj hobj
  have hjson : findJsonBlock (t.mid ++ (fenceJson ++ ('\n' ::
      (renderObj t.obj ++ ('\n' :: (fence ++ rest)))))) = some (renderObj t.obj, rest) :=
    findJsonBlock_render t.mid (renderObj t.obj) rest hmidb hbody '{' '}' hh (by decide)
      hl (by decide)
  have harg : renderTmpl t ++ rest
      = t.sep ++ ('$' :: '{' :: (t.name ++ (renderMeth t.meth ++ ('}' :: (t.mid ++
          (fenceJson ++ ('\n' :: (renderObj t.obj ++ ('\n' :: (fence ++ rest)))))))))) := by
    rw [renderTmpl]
    simp
  rw [harg, findTemplate_skip _ _ hsep, findTemplate]
  have htry : tryTemplateAt ('$' :: '{' :: (t.name ++ (renderMeth t.meth ++ ('}' :: (t.mid ++
      (fenceJson ++ ('\n' :: (renderObj t.obj ++ ('\n' :: (fence ++ rest))))))))))
      = some (t.name, t.mid ++ (fenceJson ++ ('\n' ::
          (renderObj t.obj ++ ('\n' :: (fence ++ rest)))))) := by
    cases hmm : t.meth with
    | none =>
      simp only [hmm, renderMeth, List.nil_append]
      exact tryTemplateAt_render_none _ _ hname
    | some mm =>
      obtain ⟨mc, mn⟩ := mm
      simp only [hmm] at hmeth
      simp only [hmm, renderMeth, List.cons_append, List.append_assoc]
      have h := tryTemplateAt_render_some t.name mc mn (t.mid ++
        (fenceJson ++ ('\n' :: (renderObj t.obj ++ ('\n' :: (fence ++ rest))))))
        hname hmeth.1 hmeth.2
      simpa using h
  simp only [htry, hjson]

theorem renderTmpl_len_pos (t : TmplSpec) : 0 < (renderTmpl t).length := by
  rw [renderTmpl]
  simp only [List.length_append, List.length_cons]
  omega

theorem templateMatchesAux_renderDocB :
    ∀ (items : List TmplSpec) (trail : List Char) (fuel : Nat),
      items.all wfTmpl = true → lacksChar trail '$' = true →
      (renderDocB items trail).length ≤ fuel →
      templateMatchesAux fuel (renderDocB items trail)
        = items.map (fun t => (t.name, renderObj t.obj)) := by
  intro items
  induction items with
  | nil =>
    intro trail fuel _ htr _
    cases fuel with
    | zero => rfl
    | succ f =>
      show templateMatchesAux (f + 1) trail = []
      rw [templateMatchesAux, findTemplate_none trail htr]
  | cons t ts ih =>
    intro trail fuel hall htr hlen
    simp only [List.all_cons, Bool.and_eq_true] at hall
    obtain ⟨hwt, hts⟩ := hall
    have hlen1 := renderTmpl_len_pos t
    rw [show renderDocB (t :: ts) trail = renderTmpl t ++ renderDocB ts trail from rfl]
      at hlen ⊢
    cases fuel with
    | zero =>
      rw [List.length_append] at hlen
      omega
    | succ f =>
      have hb : (renderDocB ts trail).length ≤ f := by
        rw [List.length_append] at hlen
        omega
      have hi := ih trail f hts htr hb
      rw [templateMatchesAux, findTemplate_renderTmpl t _ hwt]
      simp only [hi, List.map_cons]

theorem filterMap_buildBCall :
    ∀ items : List TmplSpec, items.all wfTmpl = true →
      (items.map (fun t => (t.name, renderObj t.obj))).filterMap
          (fun p => buildBCall p.1 p.2)
        = items.map
            (fun t => ({ name := String.mk t.name, params := bParams t.obj } : ToolCall)) := by
  intro items
  induction items with
  | nil => intro _; rfl
  | cons t ts ih =>
    intro hall
    simp only [List.all_cons, Bool.and_eq_true] at hall
    obtain ⟨hwt, hts⟩ := hall
    have hobj : wfObj t.obj = true := (wfTmpl_parts t hwt).2.2.2.2.2.2.2
    simp only [List.map_cons, List.filterMap_cons]
    rw [show buildBCall t.name (renderObj t.obj)
        = some { name := String.mk t.name, params := bParams t.obj } from by
      rw [buildBCall, jsonParse_render t.obj hobj]]
    rw [ih hts]

theorem grammarB_renderDocB (items : List TmplSpec) (trail : List Char)
    (hall : items.all wfTmpl = true) (htr : lacksChar trail '$' = true) :
    grammarB (renderDocB items trail)
      = items.map
          (fun t => ({ name := String.mk t.name, params := bParams t.obj } : ToolCall)) := by
  rw [grammarB, templateMatches,
    templateMatchesAux_renderDocB items trail _ hall htr (Nat.le_refl _)]
  exact filterMap_buildBCall items hall

theorem grammarA_renderDocB (items : List TmplSpec) (trail : List Char)
    (hall : items.all wfTmpl = true) (htr : lacksChar trail '<' = true) :
    grammarA (renderDocB items trail) = [] := by
  rw [grammarA, tagMatches_lacks _ (renderDocB_lacks_lt items trail hall htr)]
  rfl

theorem parseToolCalls_renderDocB (items : List TmplSpec) (trail : List Char)
    (hall : items.all wfTmpl = true) (htrd : lacksChar trail '$' = true)
    (htrl : lacksChar trail '<' = true) (hne : items ≠ []) :
    parseToolCalls (String.mk (renderDocB items trail))
      = some (items.map
          (fun t => ({ name := String.mk t.name, params := bParams t.obj } : ToolCall))) := by
  have hdata : (String.mk (renderDocB items trail)).data = renderDocB items trail := rfl
  have hie : (items.map
      (fun t => ({ name := String.mk t.name, params := bParams t.obj } : ToolCall))).isEmpty
      = false := by
    cases items with
    | nil => exact absurd rfl hne
    | cons _ _ => rfl
  simp [parseToolCalls, hdata, grammarA_renderDocB items trail hall htrl,
    grammarB_renderDocB items trail hall htrd, hie]

/-! # The grammar-B parameter fold -/

theorem foldl_bFold_fresh :
    ∀ (obj acc : List (String × Jval)),
      distinctKeysS obj = true →
      (∀ kv ∈ obj, ¬ kv.1 = "sql" → jsGet kv.1 acc = none) →
      obj.foldl bFold acc
        = acc ++ (obj.filter (fun kv => !(kv.1 == "sql"))).map
            (fun kv => (kv.1, Jval.str (jsString kv.2))) := by
  intro obj
  induction obj with
  | nil => intro acc _ _; simp
  | cons kv rest ih =>
    intro acc hd hf
    obtain ⟨hd1, hd2⟩ : rest.all (fun kv2 => !(kv2.1 == kv.1)) = true ∧
        distinctKeysS rest = true := by
      simpa [distinctKeysS, Bool.and_eq_true] using hd
    simp only [List.foldl_cons]
    by_cases hsql : kv.1 = "sql"
    · rw [show bFold acc kv = acc from by rw [bFold, if_pos (by simpa using hsql)]]
      rw [ih acc hd2 (fun kv2 hm hs => hf kv2 (by simp [hm]) hs)]
      rw [show (kv :: rest).filter (fun kv2 => !(kv2.1 == "sql"))
          = rest.filter (fun kv2 => !(kv2.1 == "sql")) from by
        rw [List.filter_cons]
        simp [hsql]]
    · have hacc : jsGet kv.1 acc = none := hf kv (by simp) hsql
      rw [show bFold acc kv = acc ++ [(kv.1, Jval.str (jsString kv.2))] from by
        rw [bFold, if_neg (by simpa using hsql), jsInsert_append_fresh _ _ _ hacc]]
      rw [ih (acc ++ [(kv.1, Jval.str (jsString kv.2))]) hd2 ?_]
      · rw [show (kv :: rest).filter (fun kv2 => !(kv2.1 == "sql"))
            = kv :: rest.filter (fun kv2 => !(kv2.1 == "sql")) from by
          rw [List.filter_cons]
          simp [hsql]]
        simp
      · intro kv2 hm hs
        rw [jsGet_append]
        rw [hf kv2 (by simp [hm]) hs]
        have hne : ¬ kv2.1 = kv.1 := by
          have := List.all_eq_true.mp hd1 kv2 hm
          simpa using this
        have hne' : ¬ kv.1 = kv2.1 := fun e => hne e.symm
        simp [jsGet, hne']

theorem bParams_eq_spec (obj : List (String × Jval)) (hd : distinctKeysS obj = true)
    (hq : ∀ v, jsGet "sql" obj = some v → jsTruthy v = true →
      jsGet "query" obj = none) :
    bParams obj = specBParams obj := by
  rw [bParams, specBParams]
  cases hs : jsGet "sql" obj with
  | none =>
    rw [foldl_bFold_fresh obj [] hd (fun _ _ _ => rfl), List.nil_append]
    rw [show obj.filter (fun kv => !(kv.1 == "sql")) = obj from by
      apply List.filter_eq_self.mpr
      intro kv hm
      simpa using jsGet_none_mem "sql" obj hs kv hm]
  | some v =>
    cases htr : jsTruthy v with
    | false =>
      simp only [htr, Bool.false_eq_true, if_false]
      rw [foldl_bFold_fresh obj [] hd (fun _ _ _ => rfl), List.nil_append]
    | true =>
      simp only [htr, eq_self_iff_true, if_true]
      have hqn : jsGet "query" obj = none := hq v hs htr
      have hfr : ∀ kv ∈ obj, ¬ kv.1 = "sql" →
          jsGet kv.1 (jsInsert "query" v []) = none := by
        intro kv hm _
        have hnq : ¬ kv.1 = "query" := jsGet_none_mem "query" obj hqn kv hm
        have : ("query" == kv.1) = false := by
          simpa using fun e => hnq e.symm
        simp [jsInsert, jsGet, this]
      rw [foldl_bFold_fresh obj (jsInsert "query" v []) hd hfr]
      rw [show jsInsert "query" v ([] : List (String × Jval)) = [("query", v)] from rfl]
      rfl

theorem jsGet_sql_foldl_bFold :
    ∀ (obj acc : List (String × Jval)),
      jsGet "sql" (obj.foldl bFold acc) = jsGet "sql" acc := by
  intro obj
  induction obj with
  | nil => intro acc; rfl
  | cons kv rest ih =>
    intro acc
    simp only [List.foldl_cons]
    by_cases hsql : kv.1 = "sql"
    · rw [show bFold acc kv = acc from by rw [bFold, if_pos (by simpa using hsql)]]
      exact ih acc
    · rw [show bFold acc kv = jsInsert kv.1 (Jval.str (jsString kv.2)) acc from by
        rw [bFold, if_neg (by simpa using hsql)]]
      rw [ih (jsInsert kv.1 (Jval.str (jsString kv.2)) acc)]
      exact jsGet_insert_ne "sql" kv.1 _ (fun e => hsql e.symm) acc

theorem jsGet_foldl_bFold_skip :
    ∀ (obj acc : List (String × Jval)) (k : String),
      (∀ kv ∈ obj, ¬ kv.1 = k) →
      jsGet k (obj.foldl bFold acc) = jsGet k acc := by
  intro obj
  induction obj with
  | nil => intro acc k _; rfl
  | cons kv rest ih =>
    intro acc k hno
    simp only [List.foldl_cons]
    by_cases hsql : kv.1 = "sql"
    · rw [show bFold acc kv = acc from by rw [bFold, if_pos (by simpa using hsql)]]
      exact ih acc k (fun kv2 hm => hno kv2 (by simp [hm]))
    · rw [show bFold acc kv = jsInsert kv.1 (Jval.str (jsString kv.2)) acc from by
        rw [bFold, if_neg (by simpa using hsql)]]
      rw [ih _ k (fun kv2 hm => hno kv2 (by simp [hm]))]
      exact jsGet_insert_ne k kv.1 _ (fun e => (hno kv (by simp)) e.symm) acc

theorem jsGet_foldl_bFold_mem :
    ∀ (obj acc : List (String × Jval)) (k : String) (v : Jval),
      distinctKeysS obj = true → jsGet k obj = some v → ¬ k = "sql" →
      jsGet k (obj.foldl bFold acc) = some (Jval.str (jsString v)) := by
  intro obj
  induction obj with
  | nil => intro acc k v _ hg _; simp [jsGet] at hg
  | cons kv rest ih =>
    intro acc k v hd hg hk
    obtain ⟨hd1, hd2⟩ : rest.all (fun kv2 => !(kv2.1 == kv.1)) = true ∧
        distinctKeysS rest = true := by
      simpa [distinctKeysS, Bool.and_eq_true] using hd
    simp only [List.foldl_cons]
    by_cases hhead : kv.1 = k
    · have hv : kv.2 = v := by
        rw [jsGet, if_pos (by simpa using hhead)] at hg
        simpa using hg
      subst hv
      have hksql : ¬ kv.1 = "sql" := by rw [hhead]; exact hk
      rw [show bFold acc kv = jsInsert kv.1 (Jval.str (jsString kv.2)) acc from by
        rw [bFold, if_neg (by simpa using hksql)]]
      rw [jsGet_foldl_bFold_skip rest _ k ?_]
      · rw [← hhead]
        exact jsGet_insert_self kv.1 _ acc
      · intro kv2 hm e
        have hne : ¬ kv2.1 = kv.1 := by
          simpa using List.all_eq_true.mp hd1 kv2 hm
        exact hne (e.trans hhead.symm)
    · rw [jsGet, if_neg (by simpa using hhead)] at hg
      by_cases hsql : kv.1 = "sql"
      · rw [show bFold acc kv = acc from by rw [bFold, if_pos (by simpa using hsql)]]
        exact ih acc k v hd2 hg hk
      · rw [show bFold acc kv = jsInsert kv.1 (Jval.str (jsString kv.2)) acc from by
          rw [bFold, if_neg (by simpa using hsql)]]
        exact ih _ k v hd2 hg hk

/-- **C5.** Over every rendered grammar-B document — text with no tag
pairs, made of well-formed `${name}` / `${name.method}` / `${name:method}`
occurrences each followed by a fenced JSON block (flat object, clean
distinct keys, any `sql` field a non-empty string with no separate
`query` field) — `parseToolCalls` yields exactly one `ToolCall` per
occurrence: its name is the placeholder name (the method part is not
surfaced), its parameters are the JSON fields coerced to text, except
the reserved `sql` field which is renamed to `query`. -/
theorem parser_template_grammar (items : List TmplSpec) (trail : List Char)
    (hw : items.all wfTmplC5 = true)
    (htrd : lacksChar trail '$' = true) (htrl : lacksChar trail '<' = true)
    (hne : items ≠ []) :
    parseToolCalls (String.mk (renderDocB items trail))
      = some (items.map expectBCall) := by
  have hall : items.all wfTmpl = true := by
    rw [List.all_eq_true] at hw ⊢
    intro t ht
    have h := hw t ht
    simp only [wfTmplC5, Bool.and_eq_true] at h
    exact h.1
  rw [parseToolCalls_renderDocB items trail hall htrd htrl hne]
  congr 1
  apply List.map_congr_left
  intro t ht
  have hc5 := List.all_eq_true.mp hw t ht
  simp only [wfTmplC5, Bool.and_eq_true] at hc5
  obtain ⟨hwt, hcond⟩ := hc5
  have hobj : wfObj t.obj = true := (wfTmpl_parts t hwt).2.2.2.2.2.2.2
  have hdk : distinctKeysS t.obj = true := by
    simp only [wfObj, Bool.and_eq_true] at hobj
    exact hobj.2
  have hq : ∀ v, jsGet "sql" t.obj = some v → jsTruthy v = true →
      jsGet "query" t.obj = none := by
    intro v hv _
    simp only [hv, Bool.and_eq_true] at hcond
    exact Option.isNone_iff_eq_none.mp (by simpa using hcond.2)
  rw [expectBCall, bParams_eq_spec t.obj hdk hq]

theorem parser_template_grammar_witness :
    (([{ sep := [], name := "lookup".data, meth := none, mid := [],
         obj := [("id", Jval.num 7)] }] : List TmplSpec).all wfTmplC5 = true) ∧
    parseToolCalls (String.mk (renderDocB
        [{ sep := [], name := "lookup".data, meth := none, mid := [],
             obj := [("id", Jval.num 7)] }] []))
      = some [{ name := "lookup", params := [("id", Jval.str "7")] }] := by
  refine ⟨by decide, ?_⟩
  rw [parser_template_grammar
    [{ sep := [], name := "lookup".data, meth := none, mid := [],
         obj := [("id", Jval.num 7)] }] [] (by decide) (by decide) (by decide) (by simp)]
  rfl

/-- **C10.** For every grammar-B occurrence whose fenced JSON object
contains both a `sql` field and a `query` field, the resulting
`ToolCall`'s `query` parameter is the text coercion of the JSON `query`
field (the coercion loop's in-place update overwrites the value copied
from `sql`), and no parameter named `sql` appears. -/
theorem template_sql_query_overwrite (t : TmplSpec) (trail : List Char)
    (hw : wfTmpl t = true)
    (htrd : lacksChar trail '$' = true) (htrl : lacksChar trail '<' = true)
    (sv qv : Jval) (hsv : jsGet "sql" t.obj = some sv)
    (hqv : jsGet "query" t.obj = some qv) :
    ∃ ps, parseToolCalls (String.mk (renderDocB [t] trail))
        = some [{ name := String.mk t.name, params := ps }] ∧
      jsGet "query" ps = some (Jval.str (jsString qv)) ∧
      jsGet "sql" ps = none := by
  have hobj : wfObj t.obj = true := (wfTmpl_parts t hw).2.2.2.2.2.2.2
  have hdk : distinctKeysS t.obj = true := by
    simp only [wfObj, Bool.and_eq_true] at hobj
    exact hobj.2
  refine ⟨bParams t.obj, ?_, ?_, ?_⟩
  · rw [parseToolCalls_renderDocB [t] trail (by simp [hw]) htrd htrl (by simp)]
    rfl
  · rw [bParams]
    exact jsGet_foldl_bFold_mem t.obj _ "query" qv hdk hqv (by decide)
  · rw [bParams, jsGet_sql_foldl_bFold]
    simp only [hsv]
    cases htr : jsTruthy sv <;> simp [htr, jsInsert, jsGet]

theorem template_sql_query_overwrite_witness :
    ∃ ps, parseToolCalls (String.mk (renderDocB
        [{ sep := [], name := "run".data, meth := none, mid := [],
             obj := [("sql", Jval.str "S1"), ("query", Jval.str "Q1")] }] []))
        = some [{ name := String.mk "run".data, params := ps }] ∧
      jsGet "query" ps = some (Jval.str (jsString (Jval.str "Q1"))) ∧
      jsGet "sql" ps = none :=
  template_sql_query_overwrite
    { sep := [], name := "run".data, meth := none, mid := [],
       obj := [("sql", Jval.str "S1"), ("query", Jval.str "Q1")] } []
    (by decide) (by decide) (by decide) (Jval.str "S1") (Jval.str "Q1") rfl rfl

end Microbot
